import Mathlib

/-! Thick-provisioning writer of `rbd create` (`src/tools/rbd/action/Create.cc`).

A shallow embedding of `write_data` as a small-step machine.  Every loop
test and every loop body of the C++ function is one machine step; the
collaborators (image size query, `aio_writesame`, the completion handles and
the configuration value) are oracles collected in `Env`; the calls made on
the collaborators are recorded, in order, in the `log` of the machine state.

Machine integers are natural numbers or integers with the conversions of the
source written out: `u64` for `uint64_t` arithmetic, `toInt32` for the
conversion to `int`, `u32` for `unsigned int`.

The slot array `cvec` is a list of `concurr` optional handles, `none` for
`NULL`; a slot is read with `getD`, and `slot_reads_in_bounds` shows that every
index read is inside the array. `usleep` is left out.
-/

namespace rbd.action.create

/-! ## Machine integers -/

/-- Value of an expression of type `uint64_t`. -/
def u64 (x : Nat) : Nat := x % 2 ^ 64

/-- Subtraction of two `uint64_t` values. -/
def usub64 (a b : Nat) : Nat := (a + 2 ^ 64 - b % 2 ^ 64) % 2 ^ 64

/-- Value of an expression of type `unsigned int`. -/
def u32 (x : Nat) : Nat := x % 2 ^ 32

/-- Conversion of a `uint64_t` value to `int` (two's complement, 32 bits). -/
def toInt32 (x : Nat) : Int :=
  if x % 2 ^ 32 < 2 ^ 31 then ((x % 2 ^ 32 : Nat) : Int)
  else ((x % 2 ^ 32 : Nat) : Int) - 2 ^ 32

/-! ## Constants of `write_data` -/

/-- Line 41: `const int chunk_size = 1024 * 1024`. -/
def chunk_size : Nat := 1024 * 1024

/-- Line 42: `const int block_size = 512`. -/
def block_size : Nat := 512

/-! ## Collaborators -/

/-- What the collaborators of one call of `write_data` answer.

* `EINVAL`: the errno constant of `common/errno.h` (not part of the sources
  at hand, hence a parameter);
* `rbd_concurrent_management_ops`: the `int64_t` configuration value;
* `size_ret`, `size_out`: return value of `image.size(&image_size)` and the
  number it stores;
* `aio_writesame k`: return value of the call of `image.aio_writesame` made
  for chunk `k`;
* `is_complete op t`: answer of `is_complete()` on the handle of chunk `op`
  when asked at machine time `t`;
* `get_return_value op`: answer of `get_return_value()` on the handle of
  chunk `op`, as stored into the `int r`. -/
structure Env where
  EINVAL : Int
  rbd_concurrent_management_ops : Int
  size_ret : Int
  size_out : Nat
  aio_writesame : Nat → Int
  is_complete : Nat → Nat → Bool
  get_return_value : Nat → Int

/-- Lines 37-38: `uint64_t concurr = g_conf->get_val<int64_t>(...)`. -/
def concurr (e : Env) : Nat := (e.rbd_concurrent_management_ops % 2 ^ 64).toNat

/-- Line 40/54: the `uint64_t image_size` filled in by `image.size`. -/
def image_size (e : Env) : Nat := u64 e.size_out

/-- Line 59: `chunk_num = image_size / chunk_size`. -/
def chunk_num (e : Env) : Nat := image_size e / chunk_size

/-! ## Observable calls -/

/-- Calls made by `write_data` on its collaborators. A handle is named by the
chunk it was created for. -/
inductive Event where
  /-- Line 82: `new librbd::RBD::AioCompletion`. -/
  | alloc (op : Nat)
  /-- Line 83: `image.aio_writesame(write_offset, chunk_size, ...)`. -/
  | write (write_offset len : Nat)
  /-- Lines 96 and 121: `cvec[j]->release()`. -/
  | release (op : Nat)
  /-- Line 104: `pc.update_progress(done, total)`. -/
  | update_progress (done total : Nat)
  /-- Line 110: `pc.finish()`. -/
  | finish
  /-- Line 125: `pc.fail()`. -/
  | fail
  deriving DecidableEq, Repr

/-! ## Machine state and steps -/

/-- Program points of `write_data`. -/
inductive Pc where
  /-- Line 71: top of the body of `for (;;)`. -/
  | head
  /-- Line 78: test `i < max_aio` of the send loop. -/
  | fill (i : Nat) (max_aio : Int)
  /-- Line 93: test `j < concurr` of the completion loop. -/
  | poll (j : Nat)
  /-- Line 109: test `complete_count == chunk_num`. -/
  | check
  /-- Line 119: test `j < concurr` of the loop after `err_writesame`. -/
  | cleanup (j : Nat)
  /-- Lines 115 and 129: `return r`. -/
  | done
  deriving DecidableEq, Repr

/-- Local variables of `write_data`, the machine time and the calls made so
far. `passes` counts the bodies of `for (;;)` begun. -/
structure State where
  pc : Pc
  cvec : List (Option Nat)
  target_chunk : Nat
  complete_count : Nat
  r : Int
  clock : Nat
  passes : Nat
  log : List Event
  deriving DecidableEq, Repr

/-- Lines 45-67: the state on reaching `for (;;)`, or the state at
`err_size` when the size query fails. -/
def init (e : Env) : State :=
  if e.size_ret ≠ 0 then
    { pc := .done, cvec := List.replicate (concurr e) none, target_chunk := 0,
      complete_count := 0, r := -e.EINVAL, clock := 0, passes := 0, log := [] }
  else
    { pc := .head, cvec := List.replicate (concurr e) none, target_chunk := 0,
      complete_count := 0, r := 0, clock := 0, passes := 0, log := [] }

/-- Lines 71-75: the value given to `int max_aio`. -/
def max_aio_of (e : Env) (target_chunk : Nat) : Int :=
  if usub64 (chunk_num e) target_chunk ≥ concurr e then toInt32 (concurr e)
  else toInt32 (usub64 (chunk_num e) target_chunk)

/-- Lines 78-90: one test of the send loop and, when it holds, one body. -/
def step_fill (e : Env) (s : State) (i : Nat) (max_aio : Int) : State :=
  if (i : Int) < max_aio then
    match s.cvec.getD i none with
    | none =>
      let write_offset := u64 (s.target_chunk * chunk_size)
      let cvec := s.cvec.set i (some s.target_chunk)
      let r := e.aio_writesame s.target_chunk
      let log := s.log ++ [Event.alloc s.target_chunk, Event.write write_offset chunk_size]
      if r < 0 then
        { s with pc := .cleanup 0, cvec := cvec, r := r, log := log, clock := s.clock + 1 }
      else
        { s with pc := .fill (i + 1) max_aio, cvec := cvec, r := r, log := log,
                 target_chunk := u64 (s.target_chunk + 1), clock := s.clock + 1 }
    | some _ => { s with pc := .fill (i + 1) max_aio, clock := s.clock + 1 }
  else
    { s with pc := .poll 0, clock := s.clock + 1 }

/-- Lines 93-107: one test of the completion loop and, when it holds, one
body. -/
def step_poll (e : Env) (s : State) (j : Nat) : State :=
  if j < concurr e then
    match s.cvec.getD j none with
    | some op =>
      if e.is_complete op s.clock then
        let r := e.get_return_value op
        let cvec := s.cvec.set j none
        if r < 0 then
          { s with pc := .cleanup 0, cvec := cvec, r := r,
                   log := s.log ++ [Event.release op], clock := s.clock + 1 }
        else
          let complete_count := u64 (s.complete_count + 1)
          { s with pc := .poll (u32 (j + 1)), cvec := cvec, r := r,
                   complete_count := complete_count,
                   log := s.log ++ [Event.release op,
                     Event.update_progress (u64 (complete_count * chunk_size)) (image_size e)],
                   clock := s.clock + 1 }
      else
        { s with pc := .poll (u32 (j + 1)), clock := s.clock + 1 }
    | none => { s with pc := .poll (u32 (j + 1)), clock := s.clock + 1 }
  else
    { s with pc := .check, clock := s.clock + 1 }

/-- Lines 119-125: one test of the loop after `err_writesame` and, when it
holds, one body; `pc.fail()` when it does not. -/
def step_cleanup (e : Env) (s : State) (j : Nat) : State :=
  if j < concurr e then
    match s.cvec.getD j none with
    | some op =>
      if e.is_complete op s.clock then
        { s with pc := .cleanup (u32 (j + 1)), cvec := s.cvec.set j none,
                 log := s.log ++ [Event.release op], clock := s.clock + 1 }
      else
        { s with pc := .cleanup (u32 (j + 1)), clock := s.clock + 1 }
    | none => { s with pc := .cleanup (u32 (j + 1)), clock := s.clock + 1 }
  else
    { s with pc := .done, log := s.log ++ [Event.fail], clock := s.clock + 1 }

/-- One step of `write_data`. A returned call stays where it is. -/
def step (e : Env) (s : State) : State :=
  match s.pc with
  | .head =>
    { s with pc := .fill 0 (max_aio_of e s.target_chunk), passes := s.passes + 1,
             clock := s.clock + 1 }
  | .fill i max_aio => step_fill e s i max_aio
  | .poll j => step_poll e s j
  | .check =>
    if s.complete_count = chunk_num e then
      { s with pc := .done, log := s.log ++ [Event.finish], clock := s.clock + 1 }
    else
      { s with pc := .head, clock := s.clock + 1 }
  | .cleanup j => step_cleanup e s j
  | .done => s

/-- The state `n` steps after `s`. -/
def runFrom (e : Env) (s : State) : Nat → State
  | 0 => s
  | n + 1 => runFrom e (step e s) n

/-- The state of `write_data` after `n` steps. -/
def run (e : Env) (n : Nat) : State := runFrom e (init e) n

/-- The call has returned. -/
def returned (s : State) : Prop := s.pc = .done

instance (s : State) : Decidable (returned s) := by unfold returned; infer_instance

/-- Lines 35-130: `int write_data(image, no_progress)`: the value returned, if
the call returns within `fuel` steps. -/
def write_data (e : Env) (fuel : Nat) : Option Int :=
  if (run e fuel).pc = .done then some (run e fuel).r else none

/-! ## Readings of the log -/

/-- The `(write_offset, len)` of the `aio_writesame` calls, in order. -/
def writes : List Event → List (Nat × Nat)
  | [] => []
  | .write o l :: es => (o, l) :: writes es
  | _ :: es => writes es

/-- The handles released, in order. -/
def releases : List Event → List Nat
  | [] => []
  | .release op :: es => op :: releases es
  | _ :: es => releases es

/-- The handles created, in order. -/
def allocs : List Event → List Nat
  | [] => []
  | .alloc op :: es => op :: allocs es
  | _ :: es => allocs es

/-- The `(done, total)` of the `update_progress` calls, in order. -/
def updates : List Event → List (Nat × Nat)
  | [] => []
  | .update_progress d t :: es => (d, t) :: updates es
  | _ :: es => updates es

/-- Number of non-empty slots of `cvec`. -/
def occupied (cvec : List (Option Nat)) : Nat := cvec.countP Option.isSome

/-! ## Invariants of the sweep -/

/-- Program points inside `for (;;)`. -/
def Pc.inLoop : Pc → Prop
  | .head => True
  | .fill _ _ => True
  | .poll _ => True
  | .check => True
  | .cleanup _ => False
  | .done => False

/-- The counters of the sweep: slots, chunks sent and chunks acknowledged. -/
structure Inv (e : Env) (s : State) : Prop where
  len : s.cvec.length = concurr e
  target_le : s.target_chunk ≤ chunk_num e
  complete_le : s.complete_count ≤ chunk_num e
  count : s.pc.inLoop → s.complete_count + occupied s.cvec = s.target_chunk
  fill_bound : ∀ i m, s.pc = .fill i m →
    m ≤ (concurr e : Int) ∧ m - (i : Int) ≤ ((chunk_num e - s.target_chunk : Nat) : Int)

/-- The call returned at `err_size`: nothing was called. -/
def ExitSize (e : Env) (s : State) : Prop :=
  e.size_ret ≠ 0 ∧ s.log = [] ∧ s.r = -e.EINVAL

/-- The call returned at line 115, after `pc.finish()`. -/
def ExitFinish (e : Env) (s : State) : Prop :=
  e.size_ret = 0 ∧
  (∃ l, s.log = l ++ [Event.finish] ∧ Event.finish ∉ l ∧ Event.fail ∉ l ∧
    (0 < chunk_num e →
      ∃ l', l = l' ++ [Event.update_progress (chunk_num e * chunk_size) (image_size e)])) ∧
  s.complete_count = chunk_num e ∧ s.target_chunk = chunk_num e ∧
  (writes s.log).length = chunk_num e ∧ occupied s.cvec = 0

/-- The call returned at line 129 through `err_writesame`, after `pc.fail()`. -/
def ExitFail (e : Env) (s : State) : Prop :=
  e.size_ret = 0 ∧
  (∃ l, s.log = l ++ [Event.fail] ∧ Event.finish ∉ l ∧ Event.fail ∉ l) ∧ s.r < 0

/-- What the log looks like at every program point. -/
structure LogInv (e : Env) (s : State) : Prop where
  writes_eq : writes s.log =
    (List.range (writes s.log).length).map fun k => (k * chunk_size, chunk_size)
  writes_le : (writes s.log).length ≤ chunk_num e
  writes_loop : s.pc.inLoop → (writes s.log).length = s.target_chunk
  updates_eq : updates s.log =
    (List.range s.complete_count).map fun n => ((n + 1) * chunk_size, image_size e)
  running : s.pc ≠ .done → e.size_ret = 0 ∧ Event.finish ∉ s.log ∧ Event.fail ∉ s.log
  tail : s.pc.inLoop → s.complete_count = chunk_num e → 0 < chunk_num e →
    ∃ l', s.log = l' ++ [Event.update_progress (chunk_num e * chunk_size) (image_size e)]
  failing : ∀ j, s.pc = .cleanup j → s.r < 0
  exit : s.pc = .done → ExitSize e s ∨ ExitFinish e s ∨ ExitFail e s

/-- Every handle sits in at most one slot, and a handle in a slot has not been
released. -/
structure SlotInv (s : State) : Prop where
  slot_lt : s.pc.inLoop → ∀ j op, s.cvec.getD j none = some op → op < s.target_chunk
  rel_lt : s.pc.inLoop → ∀ op ∈ releases s.log, op < s.target_chunk
  slot_inj : ∀ j1 j2 op, s.cvec.getD j1 none = some op → s.cvec.getD j2 none = some op → j1 = j2
  slot_rel : ∀ j op, s.cvec.getD j none = some op → op ∉ releases s.log
  rel_nodup : (releases s.log).Nodup

/-! ## The loop after `err_writesame` -/

/-- Where the loop after `err_writesame` stands after `k` rounds, started in
state `s`: `rel` are the handles released so far. -/
structure CleanupAt (e : Env) (s sk : State) (k : Nat) (rel : List Nat) : Prop where
  pc : sk.pc = .cleanup k
  clock : sk.clock = s.clock + k
  r : sk.r = s.r
  target : sk.target_chunk = s.target_chunk
  complete : sk.complete_count = s.complete_count
  passes : sk.passes = s.passes
  log : sk.log = s.log ++ rel.map Event.release
  len : sk.cvec.length = s.cvec.length
  rest : ∀ j, k ≤ j → sk.cvec.getD j none = s.cvec.getD j none
  seen : ∀ j op, j < k → s.cvec.getD j none = some op →
    e.is_complete op (s.clock + j) = true → sk.cvec.getD j none = none ∧ op ∈ rel
  kept : ∀ j, j < k →
    (∀ op, s.cvec.getD j none = some op → e.is_complete op (s.clock + j) = false) →
    sk.cvec.getD j none = s.cvec.getD j none
  src : ∀ op ∈ rel, ∃ j, j < k ∧ s.cvec.getD j none = some op ∧
    e.is_complete op (s.clock + j) = true

/-- The state in which `write_data` returns through `err_writesame`, entered in
state `s`: every slot whose handle answers `is_complete()` when the loop
visits it (slot `j` at time `s.clock + j`) has been released and emptied, the
other slots are untouched, `pc.fail()` comes last, `r` is returned. -/
structure Cleaned (e : Env) (s s' : State) (rel : List Nat) : Prop where
  pc : s'.pc = .done
  r : s'.r = s.r
  target : s'.target_chunk = s.target_chunk
  complete : s'.complete_count = s.complete_count
  passes : s'.passes = s.passes
  log : s'.log = s.log ++ rel.map Event.release ++ [Event.fail]
  seen : ∀ j op, s.cvec.getD j none = some op →
    e.is_complete op (s.clock + j) = true → s'.cvec.getD j none = none ∧ op ∈ rel
  kept : ∀ j, (∀ op, s.cvec.getD j none = some op → e.is_complete op (s.clock + j) = false) →
    s'.cvec.getD j none = s.cvec.getD j none
  src : ∀ op ∈ rel, ∃ j, s.cvec.getD j none = some op ∧
    e.is_complete op (s.clock + j) = true

/-! ## Reachable states and sweeps in which every operation succeeds -/

/-- A state that `write_data` passes through. -/
def Reach (e : Env) (s : State) : Prop := ∃ n, run e n = s

/-- The size query succeeds, every `aio_writesame` call of the sweep returns a
non-negative value and so does every completion. -/
structure AllOk (e : Env) : Prop where
  size : e.size_ret = 0
  issue : ∀ k, k < chunk_num e → 0 ≤ e.aio_writesame k
  result : ∀ op, op < chunk_num e → 0 ≤ e.get_return_value op

/-- While everything succeeds the error path is not entered and `r` is not
negative. -/
structure OkInv (s : State) : Prop where
  no_cleanup : ∀ j, s.pc ≠ .cleanup j
  r_nonneg : 0 ≤ s.r

/-- From time `T` on every handle of the sweep answers `is_complete()` with
true. -/
def CompleteFrom (e : Env) (T : Nat) : Prop :=
  ∀ op, op < chunk_num e → ∀ t, T ≤ t → e.is_complete op t = true

/-- Every handle of the sweep answers `is_complete()` with true from some
time on. -/
def EventuallyComplete (e : Env) : Prop :=
  ∀ op, op < chunk_num e → ∃ T, ∀ t, T ≤ t → e.is_complete op t = true

/-- What the send loop keeps, for the pass begun in state `s` with `max_aio =
m`: nothing completes, and unless all chunks are acknowledged some slot is, or
is about to be, occupied. -/
def FillKeeps (e : Env) (s : State) (m : Int) (x : State) : Prop :=
  x.complete_count = s.complete_count ∧
  (s.complete_count ≠ chunk_num e → 0 < occupied x.cvec ∨ (x.pc = .fill 0 m ∧ 0 < m))

/-- What the completion loop keeps, for the pass begun in state `s` whose send
loop ended in `s2`: nothing is sent, and once time `T` has come the slots
already visited are empty. -/
def PollKeeps (e : Env) (T : Nat) (s s2 : State) (x : State) : Prop :=
  x.target_chunk = s2.target_chunk ∧ s.clock ≤ x.clock ∧
  (T ≤ s.clock →
    (∀ j, x.pc = .poll j → ∀ j', j' < j → x.cvec.getD j' none = none) ∧
    (x.pc = .check → ∀ j', j' < concurr e → x.cvec.getD j' none = none))

/-- What holds once `err_writesame` is reached at step `n`: the call returns
`concurr + 1` steps later with the `r` it entered with, after releasing the
handles found complete and calling `pc.fail()`; nothing is sent or created any
more and `pc.finish()` is never called. -/
structure ErrorExit (e : Env) (n : Nat) : Prop where
  returned : (run e (n + (concurr e + 1))).pc = .done
  cleaned : ∃ rel, Cleaned e (run e n) (run e (n + (concurr e + 1))) rel
  writes_same : ∀ m, n ≤ m → writes (run e m).log = writes (run e n).log
  allocs_same : ∀ m, n ≤ m → allocs (run e m).log = allocs (run e n).log
  no_finish : ∀ m, Event.finish ∉ (run e m).log

/-! ## Sample collaborators -/

/-- A collaborator whose size query succeeds and whose writes are all accepted
and found complete, with result 0, at the first poll. -/
def promptEnv (ops : Int) (size : Nat) : Env :=
  { EINVAL := 22, rbd_concurrent_management_ops := ops, size_ret := 0, size_out := size,
    aio_writesame := fun _ => 0, is_complete := fun _ _ => true,
    get_return_value := fun _ => 0 }

/-- Five chunks, two slots; the third write completes with `-5`. -/
def thirdFailsEnv : Env :=
  { promptEnv 2 (5 * 1024 * 1024) with
    get_return_value := fun op => if op = 2 then -5 else 0 }

/-- The size query fails with `-2`. -/
def noSizeEnv : Env := { promptEnv 2 (5 * 1024 * 1024) with size_ret := -2 }

/-! ## States of a sweep that sends nothing -/

/-- A state in which nothing has been sent yet: all slots empty, both counters
zero, `r` still 0. -/
def idleState (e : Env) (pc : Pc) (clock passes : Nat) (log : List Event) : State :=
  { pc := pc, cvec := List.replicate (concurr e) none, target_chunk := 0,
    complete_count := 0, r := 0, clock := clock, passes := passes, log := log }

/-! ## Further sample collaborators, invariants and the callers of `write_data` -/

/-- Three chunks, two slots; the first write completes late (at time 100),
the others at the first poll. -/
def slowFirstEnv : Env :=
  { promptEnv 2 (3 * 1024 * 1024) with
    is_complete := fun op t => decide (op ≠ 0) || decide (100 ≤ t) }

/-- Five chunks, two slots; the third write completes with `-5`, late (at time
60), the first at time 8, the others at the first poll. -/
def lateThirdEnv : Env :=
  { promptEnv 2 (5 * 1024 * 1024) with
    get_return_value := fun op => if op = 2 then -5 else 0
    is_complete := fun op t =>
      if op = 0 then decide (8 ≤ t) else if op = 2 then decide (60 ≤ t) else true }

/-- Five chunks, two slots; the third write completes with `-5` at the first
poll, the second never, the others at the first poll. -/
def aloneThirdEnv : Env :=
  { promptEnv 2 (5 * 1024 * 1024) with
    get_return_value := fun op => if op = 2 then -5 else 0
    is_complete := fun op _ => decide (op ≠ 1) }

/-- In the send loop the slots already passed are occupied. -/
def FillInv (s : State) : Prop :=
  ∀ i m, s.pc = .fill i m → ∀ i', i' < i → ∃ op, s.cvec.getD i' none = some op

/-- Return codes of the collaborators called by `execute` and `thick_write`,
and the `--thick-provision` switch: `thick` is the value of
`vm.count(at::IMAGE_THICK) && vm[at::IMAGE_THICK].as<bool>()`. -/
structure ExecEnv where
  get_pool_image_snapshot_names : Int
  get_image_options : Int
  get_image_size : Int
  utils_init : Int
  create4 : Int
  thick : Bool
  init_and_open_image : Int

/-- Lines 19-23: `do_create` returns what `rbd.create4` returns. -/
def do_create (x : ExecEnv) : Int := x.create4

/-- Lines 132-156: `thick_write`: the value returned, if the call returns when
`write_data` is given `fuel` steps. -/
def thick_write (x : ExecEnv) (e : Env) (fuel : Nat) : Option Int :=
  if x.init_and_open_image < 0 then some x.init_and_open_image
  else write_data e fuel

/-- Lines 158-205: `execute`: the value returned, if the call returns when
`write_data` is given `fuel` steps. -/
def execute (x : ExecEnv) (e : Env) (fuel : Nat) : Option Int :=
  if x.get_pool_image_snapshot_names < 0 then some x.get_pool_image_snapshot_names
  else if x.get_image_options < 0 then some x.get_image_options
  else if x.get_image_size < 0 then some x.get_image_size
  else if x.utils_init < 0 then some x.utils_init
  else if do_create x < 0 then some (do_create x)
  else if x.thick then
    match thick_write x e fuel with
    | none => none
    | some r => if r < 0 then some r else some 0
  else some 0

/-- What `r` holds: inside `for (;;)` it is not negative, it is still 0 while
nothing has been sent, and once all chunks are acknowledged it is the result
of the handle released last; the same holds after `pc.finish()`. -/
structure ResultInv (e : Env) (s : State) : Prop where
  nonneg : s.pc.inLoop → 0 ≤ s.r
  unsent : s.pc.inLoop → s.target_chunk = 0 → s.r = 0
  last : s.pc.inLoop → s.complete_count = chunk_num e → 0 < chunk_num e →
    ∃ op, (releases s.log).getLast? = some op ∧ s.r = e.get_return_value op
  finished : Event.finish ∈ s.log →
    0 ≤ s.r ∧ (chunk_num e = 0 → s.r = 0) ∧
    (0 < chunk_num e →
      ∃ op, (releases s.log).getLast? = some op ∧ s.r = e.get_return_value op)

/-- Sample switches and return codes: everything before the thick write
succeeds and `--thick-provision` is given. -/
def thickExec : ExecEnv :=
  { get_pool_image_snapshot_names := 0, get_image_options := 0, get_image_size := 0,
    utils_init := 0, create4 := 0, thick := true, init_and_open_image := 0 }

/-- Three chunks, two slots, every write complete at the first poll with
result 7. -/
def resultSevenEnv : Env :=
  { promptEnv 2 (3 * 1024 * 1024) with get_return_value := fun _ => 7 }

theorem chunk_size_pos : 0 < chunk_size := by decide

theorem image_size_lt (e : Env) : image_size e < 2 ^ 64 := by
  unfold image_size u64; exact Nat.mod_lt _ (by decide)

theorem chunk_num_mul_le (e : Env) : chunk_num e * chunk_size ≤ image_size e := by
  unfold chunk_num; exact Nat.div_mul_le_self _ _

theorem chunk_num_lt (e : Env) : chunk_num e < 2 ^ 64 := by
  have h1 := chunk_num_mul_le e
  have h2 := image_size_lt e
  have h3 : chunk_num e ≤ chunk_num e * chunk_size := Nat.le_mul_of_pos_right _ chunk_size_pos
  omega

theorem u64_of_lt {x : Nat} (h : x < 2 ^ 64) : u64 x = x := Nat.mod_eq_of_lt h

theorem u32_of_lt {x : Nat} (h : x < 2 ^ 32) : u32 x = x := Nat.mod_eq_of_lt h

theorem usub64_of_le {a b : Nat} (hb : b ≤ a) (ha : a < 2 ^ 64) : usub64 a b = a - b := by
  unfold usub64
  have h1 : b % 2 ^ 64 = b := Nat.mod_eq_of_lt (by omega)
  rw [h1]
  omega

theorem toInt32_le (x : Nat) : toInt32 x ≤ (x : Int) := by
  unfold toInt32
  have h := Nat.mod_le x (2 ^ 32)
  split <;> omega

theorem toInt32_of_lt {x : Nat} (h : x < 2 ^ 31) : toInt32 x = (x : Int) := by
  unfold toInt32
  have h1 : x % 2 ^ 32 = x := Nat.mod_eq_of_lt (by omega)
  rw [h1, if_pos h]

theorem u64_mul_chunk_size (e : Env) {k : Nat} (h : k ≤ chunk_num e) :
    u64 (k * chunk_size) = k * chunk_size := by
  apply u64_of_lt
  have h1 := chunk_num_mul_le e
  have h2 := image_size_lt e
  have h3 : k * chunk_size ≤ chunk_num e * chunk_size := Nat.mul_le_mul_right _ h
  omega

theorem max_aio_of_le_concurr (e : Env) (t : Nat) : max_aio_of e t ≤ (concurr e : Int) := by
  unfold max_aio_of
  split
  · exact toInt32_le _
  · next h =>
    have := toInt32_le (usub64 (chunk_num e) t)
    omega

theorem max_aio_of_le_rest (e : Env) {t : Nat} (ht : t ≤ chunk_num e) :
    max_aio_of e t ≤ ((chunk_num e - t : Nat) : Int) := by
  unfold max_aio_of
  rw [usub64_of_le ht (chunk_num_lt e)]
  split
  · next h =>
    have := toInt32_le (concurr e)
    omega
  · exact toInt32_le _

/-! ## Slots -/

theorem getD_set_eq (l : List (Option Nat)) (i : Nat) (x : Option Nat) (h : i < l.length) :
    (l.set i x).getD i none = x := by
  induction l generalizing i with
  | nil => simp at h
  | cons a l ih =>
    cases i with
    | zero => simp
    | succ i => simp at h; simpa using ih i h

theorem getD_set_ne (l : List (Option Nat)) (i j : Nat) (x : Option Nat) (h : i ≠ j) :
    (l.set i x).getD j none = l.getD j none := by
  induction l generalizing i j with
  | nil => simp
  | cons a l ih =>
    cases i with
    | zero =>
      cases j with
      | zero => exact absurd rfl h
      | succ j => simp
    | succ i =>
      cases j with
      | zero => simp
      | succ j => simpa using ih i j (by omega)

theorem getD_lt_length (l : List (Option Nat)) (j op : Nat) (h : l.getD j none = some op) :
    j < l.length := by
  by_contra hc
  have : l.getD j none = none := by
    simp [List.getD_eq_getElem?_getD, List.getElem?_eq_none (Nat.le_of_not_lt hc)]
  rw [this] at h; cases h

theorem occupied_set_some (l : List (Option Nat)) (i k : Nat) (h : i < l.length)
    (hn : l.getD i none = none) : occupied (l.set i (some k)) = occupied l + 1 := by
  induction l generalizing i with
  | nil => simp at h
  | cons a l ih =>
    cases i with
    | zero =>
      simp at hn; subst hn
      simp [occupied, List.countP_cons]
    | succ i =>
      simp at h hn
      have := ih i h (by simpa using hn)
      simp only [occupied, List.set_cons_succ, List.countP_cons] at this ⊢
      omega

theorem occupied_set_none (l : List (Option Nat)) (j op : Nat)
    (hs : l.getD j none = some op) : occupied (l.set j none) + 1 = occupied l := by
  induction l generalizing j with
  | nil => simp at hs
  | cons a l ih =>
    cases j with
    | zero =>
      simp at hs; subst hs
      simp [occupied, List.countP_cons]
    | succ j =>
      have := ih j (by simpa using hs)
      simp only [occupied, List.set_cons_succ, List.countP_cons] at this ⊢
      omega

theorem occupied_le_length (l : List (Option Nat)) : occupied l ≤ l.length :=
  List.countP_le_length _

theorem occupied_replicate (n : Nat) : occupied (List.replicate n none) = 0 := by
  induction n with
  | zero => rfl
  | succ n ih => simp [occupied, List.replicate_succ, List.countP_cons]

theorem getD_replicate (n j : Nat) : (List.replicate n (none : Option Nat)).getD j none = none := by
  induction n generalizing j with
  | zero => simp
  | succ n ih =>
    cases j with
    | zero => simp [List.replicate_succ]
    | succ j => simp [List.replicate_succ]

theorem writes_append (l1 l2 : List Event) : writes (l1 ++ l2) = writes l1 ++ writes l2 := by
  induction l1 with
  | nil => rfl
  | cons a l ih => cases a <;> simp [writes, ih]

theorem releases_append (l1 l2 : List Event) :
    releases (l1 ++ l2) = releases l1 ++ releases l2 := by
  induction l1 with
  | nil => rfl
  | cons a l ih => cases a <;> simp [releases, ih]

theorem allocs_append (l1 l2 : List Event) : allocs (l1 ++ l2) = allocs l1 ++ allocs l2 := by
  induction l1 with
  | nil => rfl
  | cons a l ih => cases a <;> simp [allocs, ih]

theorem updates_append (l1 l2 : List Event) :
    updates (l1 ++ l2) = updates l1 ++ updates l2 := by
  induction l1 with
  | nil => rfl
  | cons a l ih => cases a <;> simp [updates, ih]

/-! ## Running -/

theorem runFrom_add (e : Env) (s : State) (a b : Nat) :
    runFrom e s (a + b) = runFrom e (runFrom e s a) b := by
  induction a generalizing s with
  | zero => simp [runFrom]
  | succ a ih => rw [Nat.succ_add]; simp only [runFrom]; exact ih _

theorem runFrom_succ (e : Env) (s : State) (n : Nat) :
    runFrom e s (n + 1) = step e (runFrom e s n) := by
  rw [runFrom_add]; rfl

theorem run_succ (e : Env) (n : Nat) : run e (n + 1) = step e (run e n) :=
  runFrom_succ e _ n

/-! ## The steps, case by case -/

/-- Case analysis on one step: a property holds after `step` when it holds
for the successor written out at each program point and branch. -/
theorem step_cases (e : Env) (s : State) (P : State → Prop)
    (head : s.pc = .head →
      P { s with pc := .fill 0 (max_aio_of e s.target_chunk), passes := s.passes + 1,
                 clock := s.clock + 1 })
    (fill_exit : ∀ i m, s.pc = .fill i m → ¬ (i : Int) < m →
      P { s with pc := .poll 0, clock := s.clock + 1 })
    (fill_skip : ∀ i m op, s.pc = .fill i m → (i : Int) < m → s.cvec.getD i none = some op →
      P { s with pc := .fill (i + 1) m, clock := s.clock + 1 })
    (fill_fail : ∀ i m, s.pc = .fill i m → (i : Int) < m → s.cvec.getD i none = none →
      e.aio_writesame s.target_chunk < 0 →
      P { s with pc := .cleanup 0, cvec := s.cvec.set i (some s.target_chunk),
                 r := e.aio_writesame s.target_chunk,
                 log := s.log ++ [Event.alloc s.target_chunk,
                   Event.write (u64 (s.target_chunk * chunk_size)) chunk_size],
                 clock := s.clock + 1 })
    (fill_issue : ∀ i m, s.pc = .fill i m → (i : Int) < m → s.cvec.getD i none = none →
      ¬ e.aio_writesame s.target_chunk < 0 →
      P { s with pc := .fill (i + 1) m, cvec := s.cvec.set i (some s.target_chunk),
                 r := e.aio_writesame s.target_chunk,
                 log := s.log ++ [Event.alloc s.target_chunk,
                   Event.write (u64 (s.target_chunk * chunk_size)) chunk_size],
                 target_chunk := u64 (s.target_chunk + 1), clock := s.clock + 1 })
    (poll_exit : ∀ j, s.pc = .poll j → ¬ j < concurr e →
      P { s with pc := .check, clock := s.clock + 1 })
    (poll_empty : ∀ j, s.pc = .poll j → j < concurr e → s.cvec.getD j none = none →
      P { s with pc := .poll (u32 (j + 1)), clock := s.clock + 1 })
    (poll_wait : ∀ j op, s.pc = .poll j → j < concurr e → s.cvec.getD j none = some op →
      e.is_complete op s.clock = false →
      P { s with pc := .poll (u32 (j + 1)), clock := s.clock + 1 })
    (poll_bad : ∀ j op, s.pc = .poll j → j < concurr e → s.cvec.getD j none = some op →
      e.is_complete op s.clock = true → e.get_return_value op < 0 →
      P { s with pc := .cleanup 0, cvec := s.cvec.set j none, r := e.get_return_value op,
                 log := s.log ++ [Event.release op], clock := s.clock + 1 })
    (poll_ok : ∀ j op, s.pc = .poll j → j < concurr e → s.cvec.getD j none = some op →
      e.is_complete op s.clock = true → ¬ e.get_return_value op < 0 →
      P { s with pc := .poll (u32 (j + 1)), cvec := s.cvec.set j none,
                 r := e.get_return_value op,
                 complete_count := u64 (s.complete_count + 1),
                 log := s.log ++ [Event.release op,
                   Event.update_progress (u64 (u64 (s.complete_count + 1) * chunk_size))
                     (image_size e)],
                 clock := s.clock + 1 })
    (check_done : s.pc = .check → s.complete_count = chunk_num e →
      P { s with pc := .done, log := s.log ++ [Event.finish], clock := s.clock + 1 })
    (check_again : s.pc = .check → s.complete_count ≠ chunk_num e →
      P { s with pc := .head, clock := s.clock + 1 })
    (cleanup_exit : ∀ j, s.pc = .cleanup j → ¬ j < concurr e →
      P { s with pc := .done, log := s.log ++ [Event.fail], clock := s.clock + 1 })
    (cleanup_empty : ∀ j, s.pc = .cleanup j → j < concurr e → s.cvec.getD j none = none →
      P { s with pc := .cleanup (u32 (j + 1)), clock := s.clock + 1 })
    (cleanup_wait : ∀ j op, s.pc = .cleanup j → j < concurr e →
      s.cvec.getD j none = some op → e.is_complete op s.clock = false →
      P { s with pc := .cleanup (u32 (j + 1)), clock := s.clock + 1 })
    (cleanup_release : ∀ j op, s.pc = .cleanup j → j < concurr e →
      s.cvec.getD j none = some op → e.is_complete op s.clock = true →
      P { s with pc := .cleanup (u32 (j + 1)), cvec := s.cvec.set j none,
                 log := s.log ++ [Event.release op], clock := s.clock + 1 })
    (done : s.pc = .done → P s) :
    P (step e s) := by
  unfold step
  split
  · next h => exact head h
  · next i m h =>
    unfold step_fill
    by_cases hi : (i : Int) < m
    · rw [if_pos hi]
      cases hc : s.cvec.getD i none with
      | none =>
        by_cases hr : e.aio_writesame s.target_chunk < 0
        · simp only [hr, if_true]; exact fill_fail i m h hi hc hr
        · simp only [hr, if_false]; exact fill_issue i m h hi hc hr
      | some op => exact fill_skip i m op h hi hc
    · rw [if_neg hi]; exact fill_exit i m h hi
  · next j h =>
    unfold step_poll
    by_cases hj : j < concurr e
    · rw [if_pos hj]
      cases hc : s.cvec.getD j none with
      | none => exact poll_empty j h hj hc
      | some op =>
        cases hd : e.is_complete op s.clock with
        | false => simpa [hd] using poll_wait j op h hj hc hd
        | true =>
          by_cases hr : e.get_return_value op < 0
          · dsimp only; rw [if_pos hd, if_pos hr]; exact poll_bad j op h hj hc hd hr
          · dsimp only; rw [if_pos hd, if_neg hr]; exact poll_ok j op h hj hc hd hr
    · rw [if_neg hj]; exact poll_exit j h hj
  · next h =>
    by_cases hc : s.complete_count = chunk_num e
    · rw [if_pos hc]; exact check_done h hc
    · rw [if_neg hc]; exact check_again h hc
  · next j h =>
    unfold step_cleanup
    by_cases hj : j < concurr e
    · rw [if_pos hj]
      cases hc : s.cvec.getD j none with
      | none => exact cleanup_empty j h hj hc
      | some op =>
        cases hd : e.is_complete op s.clock with
        | false => simpa [hd] using cleanup_wait j op h hj hc hd
        | true => simpa [hd] using cleanup_release j op h hj hc hd
    · rw [if_neg hj]; exact cleanup_exit j h hj
  · next h => exact done h

/-! ## The counting invariant holds -/

theorem Inv.inv_init (e : Env) : Inv e (init e) := by
  unfold rbd.action.create.init
  split <;>
  exact ⟨by simp, by simp, by simp, by simp [occupied_replicate], by simp⟩

theorem Inv.inv_step {e : Env} {s : State} (h : Inv e s) : Inv e (step e s) := by
  obtain ⟨hlen, htl, hcl, hcount, hfill⟩ := h
  have hN := chunk_num_lt e
  apply step_cases e s
  case head =>
    intro hpc
    refine ⟨hlen, htl, hcl, ?_, ?_⟩
    · intro _; exact hcount (by rw [hpc]; trivial)
    · intro i m hh
      simp only [Pc.fill.injEq] at hh
      obtain ⟨rfl, rfl⟩ := hh
      exact ⟨max_aio_of_le_concurr e _, by simpa using max_aio_of_le_rest e htl⟩
  case fill_exit =>
    intro i m hpc _
    exact ⟨hlen, htl, hcl, fun _ => hcount (by rw [hpc]; trivial), by simp⟩
  case fill_skip =>
    intro i m op hpc hi _
    refine ⟨hlen, htl, hcl, fun _ => hcount (by rw [hpc]; trivial), ?_⟩
    intro i' m' hh
    simp only [Pc.fill.injEq] at hh
    obtain ⟨rfl, rfl⟩ := hh
    have := hfill i m hpc
    exact ⟨this.1, by push_cast; omega⟩
  case fill_fail =>
    intro i m hpc hi hc hr
    exact ⟨by simpa using hlen, htl, hcl, by simp [Pc.inLoop], by simp⟩
  case fill_issue =>
    intro i m hpc hi hc hr
    have hb := hfill i m hpc
    have ht1 : s.target_chunk + 1 ≤ chunk_num e := by omega
    have hu : u64 (s.target_chunk + 1) = s.target_chunk + 1 := u64_of_lt (by omega)
    have hil : i < s.cvec.length := by omega
    refine ⟨by simpa using hlen, by simpa [hu] using ht1, hcl, ?_, ?_⟩
    · intro _
      have := hcount (by rw [hpc]; trivial)
      simp only [hu, occupied_set_some _ _ _ hil hc]
      omega
    · intro i' m' hh
      simp only [Pc.fill.injEq] at hh
      obtain ⟨rfl, rfl⟩ := hh
      simp only [hu]
      exact ⟨hb.1, by push_cast; omega⟩
  case poll_exit =>
    intro j hpc _
    exact ⟨hlen, htl, hcl, fun _ => hcount (by rw [hpc]; trivial), by simp⟩
  case poll_empty =>
    intro j hpc _ _
    exact ⟨hlen, htl, hcl, fun _ => hcount (by rw [hpc]; trivial), by simp⟩
  case poll_wait =>
    intro j op hpc _ _ _
    exact ⟨hlen, htl, hcl, fun _ => hcount (by rw [hpc]; trivial), by simp⟩
  case poll_bad =>
    intro j op hpc _ _ _ _
    exact ⟨by simpa using hlen, htl, hcl, by simp [Pc.inLoop], by simp⟩
  case poll_ok =>
    intro j op hpc hj hc _ _
    have hcnt := hcount (by rw [hpc]; trivial)
    have hocc := occupied_set_none _ _ _ hc
    have hu : u64 (s.complete_count + 1) = s.complete_count + 1 := u64_of_lt (by omega)
    refine ⟨by simpa using hlen, htl, by simp only [hu]; omega, ?_, by simp⟩
    intro _
    simp only [hu]; omega
  case check_done =>
    intro hpc _
    exact ⟨hlen, htl, hcl, by simp [Pc.inLoop], by simp⟩
  case check_again =>
    intro hpc _
    exact ⟨hlen, htl, hcl, fun _ => hcount (by rw [hpc]; trivial), by simp⟩
  case cleanup_exit =>
    intro j hpc _
    exact ⟨hlen, htl, hcl, by simp [Pc.inLoop], by simp⟩
  case cleanup_empty =>
    intro j hpc _ _
    exact ⟨hlen, htl, hcl, by simp [Pc.inLoop], by simp⟩
  case cleanup_wait =>
    intro j op hpc _ _ _
    exact ⟨hlen, htl, hcl, by simp [Pc.inLoop], by simp⟩
  case cleanup_release =>
    intro j op hpc _ _ _
    exact ⟨by simpa using hlen, htl, hcl, by simp [Pc.inLoop], by simp⟩
  case done =>
    intro _
    exact ⟨hlen, htl, hcl, hcount, hfill⟩

theorem Inv.inv_runFrom {e : Env} {s : State} (h : Inv e s) (n : Nat) : Inv e (runFrom e s n) := by
  induction n generalizing s with
  | zero => exact h
  | succ n ih => exact ih h.inv_step

theorem Inv.inv_run (e : Env) (n : Nat) : Inv e (run e n) := (Inv.inv_init e).inv_runFrom n

/-! ## The shape of the log -/

theorem LogInv.log_init (e : Env) : LogInv e (init e) := by
  unfold rbd.action.create.init
  split
  · next h =>
    exact ⟨by simp [writes], by simp [writes], by simp [Pc.inLoop], by simp [updates],
      by simp, by simp [Pc.inLoop], by simp, fun _ => Or.inl ⟨h, rfl, rfl⟩⟩
  · next h =>
    have h0 : e.size_ret = 0 := by simpa using h
    exact ⟨by simp [writes], by simp [writes], by simp [writes], by simp [updates],
      by simp [h0], by intro _ hc hp; simp at hc; omega, by simp, by simp⟩

theorem writes_snoc_write (l : List Event) (o n : Nat) :
    writes (l ++ [Event.alloc n, Event.write o chunk_size]) = writes l ++ [(o, chunk_size)] := by
  rw [writes_append]; rfl

theorem LogInv.log_step {e : Env} {s : State} (hI : Inv e s) (h : LogInv e s) :
    LogInv e (step e s) := by
  obtain ⟨hlen, htl, hcl, hcount, hfill⟩ := hI
  obtain ⟨hweq, hwle, hwloop, hupd, hrun, htail, hfailing, hexit⟩ := h
  have hN := chunk_num_lt e
  apply step_cases e s
  case head =>
    intro hpc
    have hin : s.pc.inLoop := by rw [hpc]; trivial
    exact ⟨hweq, hwle, fun _ => hwloop hin, hupd, fun _ => hrun (by simp [hpc]),
      fun _ => htail hin, by simp, by simp⟩
  case fill_exit =>
    intro i m hpc _
    have hin : s.pc.inLoop := by rw [hpc]; trivial
    exact ⟨hweq, hwle, fun _ => hwloop hin, hupd, fun _ => hrun (by simp [hpc]),
      fun _ => htail hin, by simp, by simp⟩
  case fill_skip =>
    intro i m op hpc _ _
    have hin : s.pc.inLoop := by rw [hpc]; trivial
    exact ⟨hweq, hwle, fun _ => hwloop hin, hupd, fun _ => hrun (by simp [hpc]),
      fun _ => htail hin, by simp, by simp⟩
  case fill_fail =>
    intro i m hpc hi hc hr
    have hin : s.pc.inLoop := by rw [hpc]; trivial
    have hb := hfill i m hpc
    have ht1 : s.target_chunk + 1 ≤ chunk_num e := by omega
    have hw := hwloop hin
    have hoff : u64 (s.target_chunk * chunk_size) = s.target_chunk * chunk_size :=
      u64_mul_chunk_size e htl
    have hr0 := hrun (by simp [hpc])
    refine ⟨?_, ?_, by simp [Pc.inLoop], ?_, ?_, by simp [Pc.inLoop], ?_, by simp⟩
    · simp only [writes_snoc_write, List.length_append, List.length_singleton,
        List.range_succ, List.map_append, List.map_singleton, hoff, hw]
      rw [← hw, ← hweq]
    · simp only [writes_snoc_write, List.length_append, List.length_singleton]; omega
    · simpa [updates_append, updates] using hupd
    · intro _; simpa using hr0
    · intro j _; exact hr
  case fill_issue =>
    intro i m hpc hi hc hr
    have hin : s.pc.inLoop := by rw [hpc]; trivial
    have hb := hfill i m hpc
    have ht1 : s.target_chunk + 1 ≤ chunk_num e := by omega
    have hu : u64 (s.target_chunk + 1) = s.target_chunk + 1 := u64_of_lt (by omega)
    have hw := hwloop hin
    have hoff : u64 (s.target_chunk * chunk_size) = s.target_chunk * chunk_size :=
      u64_mul_chunk_size e htl
    have hr0 := hrun (by simp [hpc])
    have hcnt := hcount hin
    refine ⟨?_, ?_, ?_, ?_, ?_, ?_, by simp, by simp⟩
    · simp only [writes_snoc_write, List.length_append, List.length_singleton,
        List.range_succ, List.map_append, List.map_singleton, hoff, hw]
      rw [← hw, ← hweq]
    · simp only [writes_snoc_write, List.length_append, List.length_singleton]; omega
    · intro _
      simp only [writes_snoc_write, List.length_append, List.length_singleton, hu]; omega
    · simpa [updates_append, updates] using hupd
    · intro _; simpa using hr0
    · intro _ hcc _
      simp only at hcc
      omega
  case poll_exit =>
    intro j hpc _
    have hin : s.pc.inLoop := by rw [hpc]; trivial
    exact ⟨hweq, hwle, fun _ => hwloop hin, hupd, fun _ => hrun (by simp [hpc]),
      fun _ => htail hin, by simp, by simp⟩
  case poll_empty =>
    intro j hpc _ _
    have hin : s.pc.inLoop := by rw [hpc]; trivial
    exact ⟨hweq, hwle, fun _ => hwloop hin, hupd, fun _ => hrun (by simp [hpc]),
      fun _ => htail hin, by simp, by simp⟩
  case poll_wait =>
    intro j op hpc _ _ _
    have hin : s.pc.inLoop := by rw [hpc]; trivial
    exact ⟨hweq, hwle, fun _ => hwloop hin, hupd, fun _ => hrun (by simp [hpc]),
      fun _ => htail hin, by simp, by simp⟩
  case poll_bad =>
    intro j op hpc _ _ _ hr
    have hr0 := hrun (by simp [hpc])
    refine ⟨?_, ?_, by simp [Pc.inLoop], ?_, ?_, by simp [Pc.inLoop], ?_, by simp⟩
    · simpa [writes_append, writes] using hweq
    · simpa [writes_append, writes] using hwle
    · simpa [updates_append, updates] using hupd
    · intro _; simpa using hr0
    · intro _ _; exact hr
  case poll_ok =>
    intro j op hpc hj hc _ _
    have hin : s.pc.inLoop := by rw [hpc]; trivial
    have hcnt := hcount hin
    have hocc := occupied_set_none _ _ _ hc
    have hc1 : s.complete_count + 1 ≤ chunk_num e := by omega
    have hu : u64 (s.complete_count + 1) = s.complete_count + 1 := u64_of_lt (by omega)
    have hoff : u64 ((s.complete_count + 1) * chunk_size) = (s.complete_count + 1) * chunk_size :=
      u64_mul_chunk_size e hc1
    have hr0 := hrun (by simp [hpc])
    refine ⟨?_, ?_, ?_, ?_, ?_, ?_, by simp, by simp⟩
    · simpa [writes_append, writes] using hweq
    · simpa [writes_append, writes] using hwle
    · intro _; simpa [writes_append, writes] using hwloop hin
    · simp only [updates_append, updates, hu, hoff, List.range_succ, List.map_append,
        List.map_singleton, hupd]
    · intro _; simpa using hr0
    · intro _ hcc _
      simp only [hu] at hcc
      refine ⟨s.log ++ [Event.release op], ?_⟩
      simp only [hu, hoff, List.append_assoc, List.singleton_append]
      rw [hcc]
  case check_done =>
    intro hpc hcc
    have hin : s.pc.inLoop := by rw [hpc]; trivial
    have hcnt := hcount hin
    have hr0 := hrun (by simp [hpc])
    have hw := hwloop hin
    have ht : s.target_chunk = chunk_num e := by omega
    refine ⟨?_, ?_, by simp [Pc.inLoop], ?_, by simp, by simp [Pc.inLoop], by simp, ?_⟩
    · simpa [writes_append, writes] using hweq
    · simpa [writes_append, writes] using hwle
    · simpa [updates_append, updates] using hupd
    · intro _
      refine Or.inr (Or.inl ⟨hr0.1, ⟨s.log, rfl, hr0.2.1, hr0.2.2, htail hin hcc⟩, hcc, ht, ?_, ?_⟩)
      · simp only [writes_append, writes, List.append_nil]; omega
      · show occupied s.cvec = 0
        omega
  case check_again =>
    intro hpc _
    have hin : s.pc.inLoop := by rw [hpc]; trivial
    exact ⟨hweq, hwle, fun _ => hwloop hin, hupd, fun _ => hrun (by simp [hpc]),
      fun _ => htail hin, by simp, by simp⟩
  case cleanup_exit =>
    intro j hpc _
    have hr0 := hrun (by simp [hpc])
    refine ⟨?_, ?_, by simp [Pc.inLoop], ?_, by simp, by simp [Pc.inLoop], by simp, ?_⟩
    · simpa [writes_append, writes] using hweq
    · simpa [writes_append, writes] using hwle
    · simpa [updates_append, updates] using hupd
    · intro _
      exact Or.inr (Or.inr ⟨hr0.1, ⟨s.log, rfl, hr0.2.1, hr0.2.2⟩, hfailing j hpc⟩)
  case cleanup_empty =>
    intro j hpc _ _
    exact ⟨hweq, hwle, by simp [Pc.inLoop], hupd, fun _ => hrun (by simp [hpc]),
      by simp [Pc.inLoop], fun _ _ => hfailing j hpc, by simp⟩
  case cleanup_wait =>
    intro j op hpc _ _ _
    exact ⟨hweq, hwle, by simp [Pc.inLoop], hupd, fun _ => hrun (by simp [hpc]),
      by simp [Pc.inLoop], fun _ _ => hfailing j hpc, by simp⟩
  case cleanup_release =>
    intro j op hpc _ _ _
    have hr0 := hrun (by simp [hpc])
    refine ⟨?_, ?_, by simp [Pc.inLoop], ?_, ?_, by simp [Pc.inLoop],
      fun _ _ => hfailing j hpc, by simp⟩
    · simpa [writes_append, writes] using hweq
    · simpa [writes_append, writes] using hwle
    · simpa [updates_append, updates] using hupd
    · intro _; simpa using hr0
  case done =>
    intro _
    exact ⟨hweq, hwle, hwloop, hupd, hrun, htail, hfailing, hexit⟩

theorem LogInv.log_runFrom {e : Env} {s : State} (hI : Inv e s) (h : LogInv e s) (n : Nat) :
    LogInv e (runFrom e s n) := by
  induction n generalizing s with
  | zero => exact h
  | succ n ih => exact ih hI.inv_step (h.log_step hI)

theorem LogInv.log_run (e : Env) (n : Nat) : LogInv e (run e n) :=
  (LogInv.log_init e).log_runFrom (Inv.inv_init e) n

/-! ## Handles held and handles released -/

theorem getD_set_none {l : List (Option Nat)} {j j' op : Nat} (hj : j < l.length)
    (h : (l.set j none).getD j' none = some op) : j' ≠ j ∧ l.getD j' none = some op := by
  by_cases hjj : j' = j
  · subst hjj; rw [getD_set_eq _ _ _ hj] at h; cases h
  · rw [getD_set_ne _ _ _ _ (Ne.symm hjj)] at h; exact ⟨hjj, h⟩

theorem getD_set_some {l : List (Option Nat)} {i j t op : Nat} (hi : i < l.length)
    (h : (l.set i (some t)).getD j none = some op) :
    (j = i ∧ op = t) ∨ (j ≠ i ∧ l.getD j none = some op) := by
  by_cases hji : j = i
  · subst hji; rw [getD_set_eq _ _ _ hi] at h
    exact Or.inl ⟨rfl, (Option.some.inj h).symm⟩
  · rw [getD_set_ne _ _ _ _ (Ne.symm hji)] at h; exact Or.inr ⟨hji, h⟩

theorem SlotInv.slot_init (e : Env) : SlotInv (init e) := by
  unfold rbd.action.create.init
  split <;>
  exact ⟨by simp [getD_replicate], by simp [releases], by simp [getD_replicate],
    by simp [getD_replicate], by simp [releases]⟩

theorem releases_snoc_write (l : List Event) (o n c : Nat) :
    releases (l ++ [Event.alloc n, Event.write o c]) = releases l := by
  rw [releases_append]; simp [releases]

theorem releases_snoc_release (l : List Event) (op : Nat) :
    releases (l ++ [Event.release op]) = releases l ++ [op] := by
  rw [releases_append]; rfl

theorem releases_snoc_update (l : List Event) (op d t : Nat) :
    releases (l ++ [Event.release op, Event.update_progress d t]) = releases l ++ [op] := by
  rw [releases_append]; rfl

/-- Emptying slot `j` and recording the release of its handle keeps `SlotInv`
(the part that does not depend on the program point). -/
theorem slot_release_keeps {cvec : List (Option Nat)} {rel : List Nat} {j op : Nat}
    (hc : cvec.getD j none = some op)
    (hinj : ∀ j1 j2 op, cvec.getD j1 none = some op → cvec.getD j2 none = some op → j1 = j2)
    (hrel : ∀ j op, cvec.getD j none = some op → op ∉ rel)
    (hnd : rel.Nodup) :
    (∀ j1 j2 op', (cvec.set j none).getD j1 none = some op' →
        (cvec.set j none).getD j2 none = some op' → j1 = j2) ∧
    (∀ j' op', (cvec.set j none).getD j' none = some op' → op' ∉ rel ++ [op]) ∧
    (rel ++ [op]).Nodup := by
  have hj := getD_lt_length _ _ _ hc
  refine ⟨?_, ?_, ?_⟩
  · intro j1 j2 op' h1 h2
    exact hinj j1 j2 op' (getD_set_none hj h1).2 (getD_set_none hj h2).2
  · intro j' op' h
    obtain ⟨hne, hold⟩ := getD_set_none hj h
    intro hmem
    rcases List.mem_append.mp hmem with hm | hm
    · exact hrel j' op' hold hm
    · have : op' = op := by simpa using hm
      subst this
      exact hne (hinj j' j op' hold hc)
  · rw [List.nodup_append]
    refine ⟨hnd, List.nodup_singleton _, ?_⟩
    intro a ha hb
    have : a = op := by simpa using hb
    subst this
    exact hrel j a hc ha

/-- Storing the fresh handle `t` into the empty slot `i` keeps `SlotInv` (the
part that does not depend on the program point). -/
theorem slot_store_keeps {cvec : List (Option Nat)} {rel : List Nat} {i t : Nat}
    (hi : i < cvec.length)
    (hlt : ∀ j op, cvec.getD j none = some op → op < t)
    (hrlt : ∀ op ∈ rel, op < t)
    (hinj : ∀ j1 j2 op, cvec.getD j1 none = some op → cvec.getD j2 none = some op → j1 = j2)
    (hrel : ∀ j op, cvec.getD j none = some op → op ∉ rel) :
    (∀ j op, (cvec.set i (some t)).getD j none = some op → op < t + 1) ∧
    (∀ j1 j2 op, (cvec.set i (some t)).getD j1 none = some op →
        (cvec.set i (some t)).getD j2 none = some op → j1 = j2) ∧
    (∀ j op, (cvec.set i (some t)).getD j none = some op → op ∉ rel) := by
  refine ⟨?_, ?_, ?_⟩
  · intro j op h
    rcases getD_set_some hi h with ⟨_, rfl⟩ | ⟨_, hold⟩
    · omega
    · have := hlt j op hold; omega
  · intro j1 j2 op h1 h2
    rcases getD_set_some hi h1 with ⟨e1, rfl⟩ | ⟨n1, o1⟩ <;>
    rcases getD_set_some hi h2 with ⟨e2, e2'⟩ | ⟨n2, o2⟩
    · rw [e1, e2]
    · have := hlt j2 _ o2; omega
    · subst e2'; have := hlt j1 _ o1; omega
    · exact hinj j1 j2 op o1 o2
  · intro j op h hm
    rcases getD_set_some hi h with ⟨_, rfl⟩ | ⟨_, hold⟩
    · have := hrlt _ hm; omega
    · exact hrel j op hold hm

theorem SlotInv.slot_step {e : Env} {s : State} (hI : Inv e s) (h : SlotInv s) :
    SlotInv (step e s) := by
  obtain ⟨hlen, htl, hcl, hcount, hfill⟩ := hI
  obtain ⟨hslt, hrlt, hinj, hrel, hnd⟩ := h
  have hN := chunk_num_lt e
  apply step_cases e s
  case head =>
    intro hpc
    have hin : s.pc.inLoop := by rw [hpc]; trivial
    exact ⟨fun _ => hslt hin, fun _ => hrlt hin, hinj, hrel, hnd⟩
  case fill_exit =>
    intro i m hpc _
    have hin : s.pc.inLoop := by rw [hpc]; trivial
    exact ⟨fun _ => hslt hin, fun _ => hrlt hin, hinj, hrel, hnd⟩
  case fill_skip =>
    intro i m op hpc _ _
    have hin : s.pc.inLoop := by rw [hpc]; trivial
    exact ⟨fun _ => hslt hin, fun _ => hrlt hin, hinj, hrel, hnd⟩
  case fill_fail =>
    intro i m hpc hi hc hr
    have hin : s.pc.inLoop := by rw [hpc]; trivial
    have hb := hfill i m hpc
    have hil : i < s.cvec.length := by omega
    obtain ⟨_, k2, k3⟩ := slot_store_keeps hil (hslt hin) (hrlt hin) hinj hrel
    refine ⟨by simp [Pc.inLoop], by simp [Pc.inLoop], k2, ?_, ?_⟩
    · simpa only [releases_snoc_write] using k3
    · simpa only [releases_snoc_write] using hnd
  case fill_issue =>
    intro i m hpc hi hc hr
    have hin : s.pc.inLoop := by rw [hpc]; trivial
    have hb := hfill i m hpc
    have hil : i < s.cvec.length := by omega
    have hu : u64 (s.target_chunk + 1) = s.target_chunk + 1 := u64_of_lt (by omega)
    obtain ⟨k1, k2, k3⟩ := slot_store_keeps hil (hslt hin) (hrlt hin) hinj hrel
    refine ⟨?_, ?_, k2, ?_, ?_⟩
    · intro _; simpa only [hu] using k1
    · intro _ op hop
      simp only [releases_snoc_write] at hop
      have := hrlt hin op hop
      simp only [hu]; omega
    · simpa only [releases_snoc_write] using k3
    · simpa only [releases_snoc_write] using hnd
  case poll_exit =>
    intro j hpc _
    have hin : s.pc.inLoop := by rw [hpc]; trivial
    exact ⟨fun _ => hslt hin, fun _ => hrlt hin, hinj, hrel, hnd⟩
  case poll_empty =>
    intro j hpc _ _
    have hin : s.pc.inLoop := by rw [hpc]; trivial
    exact ⟨fun _ => hslt hin, fun _ => hrlt hin, hinj, hrel, hnd⟩
  case poll_wait =>
    intro j op hpc _ _ _
    have hin : s.pc.inLoop := by rw [hpc]; trivial
    exact ⟨fun _ => hslt hin, fun _ => hrlt hin, hinj, hrel, hnd⟩
  case poll_bad =>
    intro j op hpc _ hc _ _
    obtain ⟨k1, k2, k3⟩ := slot_release_keeps hc hinj hrel hnd
    refine ⟨by simp [Pc.inLoop], by simp [Pc.inLoop], k1, ?_, ?_⟩
    · simpa only [releases_snoc_release] using k2
    · simpa only [releases_snoc_release] using k3
  case poll_ok =>
    intro j op hpc _ hc _ _
    have hin : s.pc.inLoop := by rw [hpc]; trivial
    have hj := getD_lt_length _ _ _ hc
    obtain ⟨k1, k2, k3⟩ := slot_release_keeps hc hinj hrel hnd
    refine ⟨?_, ?_, k1, ?_, ?_⟩
    · intro _ j' op' h'
      exact hslt hin j' op' (getD_set_none hj h').2
    · intro _ op' hop
      simp only [releases_snoc_update] at hop
      rcases List.mem_append.mp hop with hm | hm
      · exact hrlt hin op' hm
      · have : op' = op := by simpa using hm
        subst this
        exact hslt hin j op' hc
    · simpa only [releases_snoc_update] using k2
    · simpa only [releases_snoc_update] using k3
  case check_done =>
    intro hpc _
    refine ⟨by simp [Pc.inLoop], by simp [Pc.inLoop], hinj, ?_, ?_⟩
    · simpa [releases_append, releases] using hrel
    · simpa [releases_append, releases] using hnd
  case check_again =>
    intro hpc _
    have hin : s.pc.inLoop := by rw [hpc]; trivial
    exact ⟨fun _ => hslt hin, fun _ => hrlt hin, hinj, hrel, hnd⟩
  case cleanup_exit =>
    intro j hpc _
    refine ⟨by simp [Pc.inLoop], by simp [Pc.inLoop], hinj, ?_, ?_⟩
    · simpa [releases_append, releases] using hrel
    · simpa [releases_append, releases] using hnd
  case cleanup_empty =>
    intro j hpc _ _
    exact ⟨by simp [Pc.inLoop], by simp [Pc.inLoop], hinj, hrel, hnd⟩
  case cleanup_wait =>
    intro j op hpc _ _ _
    exact ⟨by simp [Pc.inLoop], by simp [Pc.inLoop], hinj, hrel, hnd⟩
  case cleanup_release =>
    intro j op hpc _ hc _
    obtain ⟨k1, k2, k3⟩ := slot_release_keeps hc hinj hrel hnd
    refine ⟨by simp [Pc.inLoop], by simp [Pc.inLoop], k1, ?_, ?_⟩
    · simpa only [releases_snoc_release] using k2
    · simpa only [releases_snoc_release] using k3
  case done =>
    intro _
    exact ⟨hslt, hrlt, hinj, hrel, hnd⟩

theorem SlotInv.slot_runFrom {e : Env} {s : State} (hI : Inv e s) (h : SlotInv s) (n : Nat) :
    SlotInv (runFrom e s n) := by
  induction n generalizing s with
  | zero => exact h
  | succ n ih => exact ih hI.inv_step (h.slot_step hI)

theorem SlotInv.slot_run (e : Env) (n : Nat) : SlotInv (run e n) :=
  (SlotInv.slot_init e).slot_runFrom (Inv.inv_init e) n

/-! ## The steps of each loop -/

/-- The branches of one step taken inside the send loop. -/
theorem step_cases_fill (e : Env) (s : State) (i : Nat) (m : Int) (h : s.pc = .fill i m)
    (P : State → Prop)
    (fill_exit : ¬ (i : Int) < m → P { s with pc := .poll 0, clock := s.clock + 1 })
    (fill_skip : ∀ op, (i : Int) < m → s.cvec.getD i none = some op →
      P { s with pc := .fill (i + 1) m, clock := s.clock + 1 })
    (fill_fail : (i : Int) < m → s.cvec.getD i none = none →
      e.aio_writesame s.target_chunk < 0 →
      P { s with pc := .cleanup 0, cvec := s.cvec.set i (some s.target_chunk),
                 r := e.aio_writesame s.target_chunk,
                 log := s.log ++ [Event.alloc s.target_chunk,
                   Event.write (u64 (s.target_chunk * chunk_size)) chunk_size],
                 clock := s.clock + 1 })
    (fill_issue : (i : Int) < m → s.cvec.getD i none = none →
      ¬ e.aio_writesame s.target_chunk < 0 →
      P { s with pc := .fill (i + 1) m, cvec := s.cvec.set i (some s.target_chunk),
                 r := e.aio_writesame s.target_chunk,
                 log := s.log ++ [Event.alloc s.target_chunk,
                   Event.write (u64 (s.target_chunk * chunk_size)) chunk_size],
                 target_chunk := u64 (s.target_chunk + 1), clock := s.clock + 1 }) :
    P (step e s) := by
  apply step_cases e s P
  case fill_exit => intro i' m' hpc hi; rw [h] at hpc; cases hpc; exact fill_exit hi
  case fill_skip => intro i' m' op hpc hi hc; rw [h] at hpc; cases hpc; exact fill_skip op hi hc
  case fill_fail => intro i' m' hpc hi hc hr; rw [h] at hpc; cases hpc; exact fill_fail hi hc hr
  case fill_issue =>
    intro i' m' hpc hi hc hr; rw [h] at hpc; cases hpc; exact fill_issue hi hc hr
  all_goals (intros; simp_all)

/-- The branches of one step taken inside the completion loop. -/
theorem step_cases_poll (e : Env) (s : State) (j : Nat) (h : s.pc = .poll j)
    (P : State → Prop)
    (poll_exit : ¬ j < concurr e → P { s with pc := .check, clock := s.clock + 1 })
    (poll_empty : j < concurr e → s.cvec.getD j none = none →
      P { s with pc := .poll (u32 (j + 1)), clock := s.clock + 1 })
    (poll_wait : ∀ op, j < concurr e → s.cvec.getD j none = some op →
      e.is_complete op s.clock = false →
      P { s with pc := .poll (u32 (j + 1)), clock := s.clock + 1 })
    (poll_bad : ∀ op, j < concurr e → s.cvec.getD j none = some op →
      e.is_complete op s.clock = true → e.get_return_value op < 0 →
      P { s with pc := .cleanup 0, cvec := s.cvec.set j none, r := e.get_return_value op,
                 log := s.log ++ [Event.release op], clock := s.clock + 1 })
    (poll_ok : ∀ op, j < concurr e → s.cvec.getD j none = some op →
      e.is_complete op s.clock = true → ¬ e.get_return_value op < 0 →
      P { s with pc := .poll (u32 (j + 1)), cvec := s.cvec.set j none,
                 r := e.get_return_value op,
                 complete_count := u64 (s.complete_count + 1),
                 log := s.log ++ [Event.release op,
                   Event.update_progress (u64 (u64 (s.complete_count + 1) * chunk_size))
                     (image_size e)],
                 clock := s.clock + 1 }) :
    P (step e s) := by
  apply step_cases e s P
  case poll_exit => intro j' hpc hj; rw [h] at hpc; cases hpc; exact poll_exit hj
  case poll_empty => intro j' hpc hj hc; rw [h] at hpc; cases hpc; exact poll_empty hj hc
  case poll_wait =>
    intro j' op hpc hj hc hd; rw [h] at hpc; cases hpc; exact poll_wait op hj hc hd
  case poll_bad =>
    intro j' op hpc hj hc hd hr; rw [h] at hpc; cases hpc; exact poll_bad op hj hc hd hr
  case poll_ok =>
    intro j' op hpc hj hc hd hr; rw [h] at hpc; cases hpc; exact poll_ok op hj hc hd hr
  all_goals (intros; simp_all)

/-- The branches of one step taken inside the loop after `err_writesame`. -/
theorem step_cases_cleanup (e : Env) (s : State) (j : Nat) (h : s.pc = .cleanup j)
    (P : State → Prop)
    (cleanup_exit : ¬ j < concurr e →
      P { s with pc := .done, log := s.log ++ [Event.fail], clock := s.clock + 1 })
    (cleanup_empty : j < concurr e → s.cvec.getD j none = none →
      P { s with pc := .cleanup (u32 (j + 1)), clock := s.clock + 1 })
    (cleanup_wait : ∀ op, j < concurr e → s.cvec.getD j none = some op →
      e.is_complete op s.clock = false →
      P { s with pc := .cleanup (u32 (j + 1)), clock := s.clock + 1 })
    (cleanup_release : ∀ op, j < concurr e → s.cvec.getD j none = some op →
      e.is_complete op s.clock = true →
      P { s with pc := .cleanup (u32 (j + 1)), cvec := s.cvec.set j none,
                 log := s.log ++ [Event.release op], clock := s.clock + 1 }) :
    P (step e s) := by
  apply step_cases e s P
  case cleanup_exit => intro j' hpc hj; rw [h] at hpc; cases hpc; exact cleanup_exit hj
  case cleanup_empty =>
    intro j' hpc hj hc; rw [h] at hpc; cases hpc; exact cleanup_empty hj hc
  case cleanup_wait =>
    intro j' op hpc hj hc hd; rw [h] at hpc; cases hpc; exact cleanup_wait op hj hc hd
  case cleanup_release =>
    intro j' op hpc hj hc hd; rw [h] at hpc; cases hpc; exact cleanup_release op hj hc hd
  all_goals (intros; simp_all)

theorem step_of_head {e : Env} {s : State} (h : s.pc = .head) :
    step e s = { s with pc := .fill 0 (max_aio_of e s.target_chunk), passes := s.passes + 1,
                        clock := s.clock + 1 } := by
  unfold step; rw [h]

theorem step_of_check_done {e : Env} {s : State} (h : s.pc = .check)
    (hc : s.complete_count = chunk_num e) :
    step e s = { s with pc := .done, log := s.log ++ [Event.finish], clock := s.clock + 1 } := by
  unfold step; rw [h]; simp only []; rw [if_pos hc]

theorem step_of_check_again {e : Env} {s : State} (h : s.pc = .check)
    (hc : s.complete_count ≠ chunk_num e) :
    step e s = { s with pc := .head, clock := s.clock + 1 } := by
  unfold step; rw [h]; simp only []; rw [if_neg hc]

theorem step_of_done {e : Env} {s : State} (h : s.pc = .done) : step e s = s := by
  unfold step; rw [h]

theorem runFrom_of_done {e : Env} {s : State} (h : s.pc = .done) (n : Nat) :
    runFrom e s n = s := by
  induction n with
  | zero => rfl
  | succ n ih => rw [runFrom_succ, ih, step_of_done h]

/-! ## The loop after `err_writesame` ends -/

theorem CleanupAt.next {e : Env} {s sk : State} {k : Nat} {rel : List Nat}
    (h : CleanupAt e s sk k rel) (hk : k < concurr e) (h32 : concurr e < 2 ^ 32) :
    ∃ rel', CleanupAt e s (step e sk) (k + 1) rel' := by
  have hu : u32 (k + 1) = k + 1 := u32_of_lt (by omega)
  have hslot : sk.cvec.getD k none = s.cvec.getD k none := h.rest k (Nat.le_refl k)
  apply step_cases_cleanup e sk k h.pc (fun x => ∃ rel', CleanupAt e s x (k + 1) rel')
  case cleanup_exit => intro hn; exact absurd hk hn
  case cleanup_empty =>
    intro _ hc
    refine ⟨rel, ⟨by simp [hu], by simp [h.clock]; omega, h.r, h.target, h.complete, h.passes,
      h.log, h.len, fun j hj => h.rest j (by omega), ?_, ?_, ?_⟩⟩
    · intro j op hj hs hd
      rcases Nat.lt_succ_iff_lt_or_eq.mp hj with hlt | heq
      · exact h.seen j op hlt hs hd
      · subst heq; rw [← hslot, hc] at hs; cases hs
    · intro j hj hn
      rcases Nat.lt_succ_iff_lt_or_eq.mp hj with hlt | heq
      · exact h.kept j hlt hn
      · subst heq; exact hslot
    · intro op hop
      obtain ⟨j, hj, hh⟩ := h.src op hop
      exact ⟨j, by omega, hh⟩
  case cleanup_wait =>
    intro op _ hc hd
    have hs0 : s.cvec.getD k none = some op := by rw [← hslot, hc]
    refine ⟨rel, ⟨by simp [hu], by simp [h.clock]; omega, h.r, h.target, h.complete,
      h.passes, h.log, h.len, fun j hj => h.rest j (by omega), ?_, ?_, ?_⟩⟩
    · intro j op' hj hs hd'
      rcases Nat.lt_succ_iff_lt_or_eq.mp hj with hlt | heq
      · exact h.seen j op' hlt hs hd'
      · subst heq
        rw [hs0] at hs
        cases hs
        rw [h.clock] at hd
        rw [hd] at hd'; cases hd'
    · intro j hj hn
      rcases Nat.lt_succ_iff_lt_or_eq.mp hj with hlt | heq
      · exact h.kept j hlt hn
      · subst heq; exact hslot
    · intro op' hop
      obtain ⟨j, hj, hh⟩ := h.src op' hop
      exact ⟨j, by omega, hh⟩
  case cleanup_release =>
    intro op _ hc hd
    have hs0 : s.cvec.getD k none = some op := by rw [← hslot, hc]
    have hkl : k < sk.cvec.length := getD_lt_length _ _ _ hc
    refine ⟨rel ++ [op], ⟨by simp [hu], by simp [h.clock]; omega, h.r, h.target, h.complete,
      h.passes, by simp [h.log], by simp [h.len], ?_, ?_, ?_, ?_⟩⟩
    · intro j hj
      show (sk.cvec.set k none).getD j none = s.cvec.getD j none
      rw [getD_set_ne _ _ _ _ (by omega)]
      exact h.rest j (by omega)
    · intro j op' hj hs hd'
      show (sk.cvec.set k none).getD j none = none ∧ op' ∈ rel ++ [op]
      rcases Nat.lt_succ_iff_lt_or_eq.mp hj with hlt | heq
      · obtain ⟨h1, h2⟩ := h.seen j op' hlt hs hd'
        rw [getD_set_ne _ _ _ _ (by omega)]
        exact ⟨h1, List.mem_append_left _ h2⟩
      · subst heq
        rw [hs0] at hs
        cases hs
        exact ⟨getD_set_eq _ _ _ hkl, by simp⟩
    · intro j hj hn
      show (sk.cvec.set k none).getD j none = s.cvec.getD j none
      rcases Nat.lt_succ_iff_lt_or_eq.mp hj with hlt | heq
      · rw [getD_set_ne _ _ _ _ (by omega)]
        exact h.kept j hlt hn
      · subst heq
        have := hn op hs0
        rw [h.clock] at hd
        rw [hd] at this; cases this
    · intro op' hop
      rcases List.mem_append.mp hop with hm | hm
      · obtain ⟨j, hj, hh⟩ := h.src op' hm
        exact ⟨j, by omega, hh⟩
      · have : op' = op := by simpa using hm
        subst this
        rw [h.clock] at hd
        exact ⟨k, by omega, hs0, hd⟩

theorem CleanupAt.start (e : Env) (s : State) (h : s.pc = .cleanup 0) :
    CleanupAt e s s 0 [] :=
  ⟨h, rfl, rfl, rfl, rfl, rfl, by simp, rfl, fun _ _ => rfl, by simp, by simp, by simp⟩

theorem CleanupAt.reach {e : Env} {s : State} (h : s.pc = .cleanup 0)
    (h32 : concurr e < 2 ^ 32) (k : Nat) (hk : k ≤ concurr e) :
    ∃ rel, CleanupAt e s (runFrom e s k) k rel := by
  induction k with
  | zero => exact ⟨[], CleanupAt.start e s h⟩
  | succ k ih =>
    obtain ⟨rel, hrel⟩ := ih (by omega)
    rw [runFrom_succ]
    exact hrel.next (by omega) h32

/-- The loop after `err_writesame` ends: `concurr + 1` steps after entering it
`write_data` has returned. -/
theorem cleanup_run {e : Env} {s : State} (h : s.pc = .cleanup 0)
    (hlen : s.cvec.length = concurr e) (h32 : concurr e < 2 ^ 32) :
    ∃ rel, Cleaned e s (runFrom e s (concurr e + 1)) rel := by
  obtain ⟨rel, hk⟩ := CleanupAt.reach h h32 (concurr e) (Nat.le_refl _)
  refine ⟨rel, ?_⟩
  rw [runFrom_succ]
  apply step_cases_cleanup e _ _ hk.pc (fun x => Cleaned e s x rel)
  case cleanup_empty => intro hn; exact absurd hn (Nat.lt_irrefl _)
  case cleanup_wait => intro _ hn; exact absurd hn (Nat.lt_irrefl _)
  case cleanup_release => intro _ hn; exact absurd hn (Nat.lt_irrefl _)
  intro _
  refine ⟨rfl, hk.r, hk.target, hk.complete, hk.passes, by simp [hk.log], ?_, ?_, ?_⟩
  · intro j op hs hd
    have hj : j < concurr e := by rw [← hlen]; exact getD_lt_length _ _ _ hs
    exact hk.seen j op hj hs hd
  · intro j hn
    show (runFrom e s (concurr e)).cvec.getD j none = s.cvec.getD j none
    by_cases hj : j < concurr e
    · exact hk.kept j hj hn
    · exact hk.rest j (by omega)
  · intro op hop
    obtain ⟨j, _, hh⟩ := hk.src op hop
    exact ⟨j, hh⟩

theorem writes_map_release (rel : List Nat) : writes (rel.map Event.release) = [] := by
  induction rel with
  | nil => rfl
  | cons a l ih => simpa [writes] using ih

theorem releases_map_release (rel : List Nat) : releases (rel.map Event.release) = rel := by
  induction rel with
  | nil => rfl
  | cons a l ih => simp [releases, ih]

theorem updates_map_release (rel : List Nat) : updates (rel.map Event.release) = [] := by
  induction rel with
  | nil => rfl
  | cons a l ih => simpa [updates] using ih

theorem finish_not_mem_map_release (rel : List Nat) :
    Event.finish ∉ rel.map Event.release := by
  simp

/-! ## Reachable states, time and the growth of the log -/

theorem Reach.step_reach {e : Env} {s : State} (h : Reach e s) : Reach e (step e s) := by
  obtain ⟨n, rfl⟩ := h
  exact ⟨n + 1, run_succ e n⟩

theorem Reach.runFrom_reach {e : Env} {s : State} (h : Reach e s) (k : Nat) :
    Reach e (runFrom e s k) := by
  induction k generalizing s with
  | zero => exact h
  | succ k ih => exact ih h.step_reach

theorem Reach.inv {e : Env} {s : State} (h : Reach e s) : Inv e s := by
  obtain ⟨n, rfl⟩ := h; exact Inv.inv_run e n

theorem Reach.logInv {e : Env} {s : State} (h : Reach e s) : LogInv e s := by
  obtain ⟨n, rfl⟩ := h; exact LogInv.log_run e n

theorem Reach.slotInv {e : Env} {s : State} (h : Reach e s) : SlotInv s := by
  obtain ⟨n, rfl⟩ := h; exact SlotInv.slot_run e n

/-- Every slot index read by one of the three loops is inside `cvec`. -/
theorem slot_reads_in_bounds {e : Env} {s : State} (h : Reach e s) :
    (∀ i m, s.pc = .fill i m → (i : Int) < m → i < s.cvec.length) ∧
    (∀ j, s.pc = .poll j → j < concurr e → j < s.cvec.length) ∧
    (∀ j, s.pc = .cleanup j → j < concurr e → j < s.cvec.length) := by
  have hI := h.inv
  refine ⟨fun i m hpc hi => ?_, fun j _ hj => ?_, fun j _ hj => ?_⟩
  · have := (hI.fill_bound i m hpc).1
    have := hI.len
    omega
  · rw [hI.len]; exact hj
  · rw [hI.len]; exact hj

theorem run_add (e : Env) (n k : Nat) : run e (n + k) = runFrom e (run e n) k :=
  runFrom_add e _ n k

/-- A step taken before the return advances the clock by one. -/
theorem step_clock (e : Env) (s : State) (h : (step e s).pc ≠ .done) :
    s.pc ≠ .done ∧ (step e s).clock = s.clock + 1 := by
  revert h
  apply step_cases e s (fun x => x.pc ≠ .done → s.pc ≠ .done ∧ x.clock = s.clock + 1)
  case done => intro h hn; exact absurd h hn
  all_goals (intros; simp_all)

theorem runFrom_clock (e : Env) (s : State) (k : Nat) (h : (runFrom e s k).pc ≠ .done) :
    (runFrom e s k).clock = s.clock + k := by
  induction k with
  | zero => rfl
  | succ k ih =>
    rw [runFrom_succ] at h ⊢
    obtain ⟨h1, h2⟩ := step_clock e _ h
    rw [h2, ih h1]; omega

/-- The clock never goes back. -/
theorem step_clock_le (e : Env) (s : State) : s.clock ≤ (step e s).clock := by
  apply step_cases e s (fun x => s.clock ≤ x.clock)
  all_goals (intros; simp)

theorem runFrom_clock_le (e : Env) (s : State) (k : Nat) : s.clock ≤ (runFrom e s k).clock := by
  induction k with
  | zero => exact Nat.le_refl _
  | succ k ih => rw [runFrom_succ]; exact Nat.le_trans ih (step_clock_le e _)

/-- A step only appends to the log. -/
theorem step_log_grows (e : Env) (s : State) : s.log <+: (step e s).log := by
  apply step_cases e s (fun x => s.log <+: x.log)
  all_goals (intros; simp)

theorem runFrom_log_grows (e : Env) (s : State) (k : Nat) : s.log <+: (runFrom e s k).log := by
  induction k with
  | zero => exact List.prefix_refl _
  | succ k ih => rw [runFrom_succ]; exact List.IsPrefix.trans ih (step_log_grows e _)

theorem run_log_grows (e : Env) {n m : Nat} (h : n ≤ m) : (run e n).log <+: (run e m).log := by
  obtain ⟨k, rfl⟩ := Nat.exists_eq_add_of_le h
  rw [run_add]; exact runFrom_log_grows e _ k

theorem releases_grow {l1 l2 : List Event} (h : l1 <+: l2) : releases l1 <+: releases l2 := by
  obtain ⟨t, rfl⟩ := h
  rw [releases_append]; exact List.prefix_append _ _

/-! ## Sweeps in which every operation succeeds -/

theorem OkInv.ok_init {e : Env} (hok : AllOk e) : OkInv (init e) := by
  unfold rbd.action.create.init
  rw [if_neg (by simp [hok.size])]
  exact ⟨by simp, by simp⟩

theorem fill_target_lt {e : Env} {s : State} (hI : Inv e s) {i : Nat} {m : Int}
    (hpc : s.pc = .fill i m) (hi : (i : Int) < m) : s.target_chunk < chunk_num e := by
  have := (hI.fill_bound i m hpc).2
  omega

theorem fill_index_lt {e : Env} {s : State} (hI : Inv e s) {i : Nat} {m : Int}
    (hpc : s.pc = .fill i m) (hi : (i : Int) < m) : i < s.cvec.length := by
  have := (hI.fill_bound i m hpc).1
  have := hI.len
  omega

theorem poll_op_lt {e : Env} {s : State} (hI : Inv e s) (hS : SlotInv s) {j op : Nat}
    (hpc : s.pc = .poll j) (hc : s.cvec.getD j none = some op) : op < chunk_num e := by
  have := hS.slot_lt (by rw [hpc]; trivial) j op hc
  have := hI.target_le
  omega

theorem OkInv.ok_step {e : Env} {s : State} (hok : AllOk e) (hI : Inv e s) (hS : SlotInv s)
    (h : OkInv s) : OkInv (step e s) := by
  obtain ⟨hnc, hr⟩ := h
  apply step_cases e s
  case fill_fail =>
    intro i m hpc hi _ hneg
    have := hok.issue _ (fill_target_lt hI hpc hi)
    omega
  case fill_issue =>
    intro i m hpc hi _ _
    exact ⟨by simp, hok.issue _ (fill_target_lt hI hpc hi)⟩
  case poll_bad =>
    intro j op hpc _ hc _ hneg
    have := hok.result _ (poll_op_lt hI hS hpc hc)
    omega
  case poll_ok =>
    intro j op hpc _ hc _ _
    exact ⟨by simp, hok.result _ (poll_op_lt hI hS hpc hc)⟩
  case cleanup_exit => intro j hpc; exact absurd hpc (hnc j)
  case cleanup_empty => intro j hpc; exact absurd hpc (hnc j)
  case cleanup_wait => intro j op hpc; exact absurd hpc (hnc j)
  case cleanup_release => intro j op hpc; exact absurd hpc (hnc j)
  case done => intro _; exact ⟨hnc, hr⟩
  all_goals (intros; exact ⟨by simp, hr⟩)

theorem OkInv.ok_run {e : Env} (hok : AllOk e) (n : Nat) : OkInv (run e n) := by
  induction n with
  | zero => exact OkInv.ok_init hok
  | succ n ih => rw [run_succ]; exact ih.ok_step hok (Inv.inv_run e n) (SlotInv.slot_run e n)

theorem Reach.okInv {e : Env} {s : State} (hok : AllOk e) (h : Reach e s) : OkInv s := by
  obtain ⟨n, rfl⟩ := h; exact OkInv.ok_run hok n

/-- When everything succeeds, a return is a return after `pc.finish()`. -/
theorem exit_finish_of_ok {e : Env} (hok : AllOk e) {s : State} (h : Reach e s)
    (hd : s.pc = .done) : ExitFinish e s := by
  rcases h.logInv.exit hd with hs | hf | hx
  · exact absurd hok.size hs.1
  · exact hf
  · have := (h.okInv hok).r_nonneg
    have := hx.2.2
    omega

/-! ## The two inner loops when every operation succeeds -/

theorem fill_step_pc {e : Env} (hok : AllOk e) {s : State} (hr : Reach e s) {i : Nat} {m : Int}
    (hpc : s.pc = .fill i m) :
    (step e s).pc = if (i : Int) < m then .fill (i + 1) m else .poll 0 := by
  apply step_cases_fill e s i m hpc
    (fun x => x.pc = if (i : Int) < m then Pc.fill (i + 1) m else Pc.poll 0)
  case fill_exit => intro hi; simp [hi]
  case fill_skip => intro op hi _; simp [hi]
  case fill_fail =>
    intro hi _ hneg
    have := hok.issue _ (fill_target_lt hr.inv hpc hi)
    omega
  case fill_issue => intro hi _ _; simp [hi]

/-- The send loop runs to its end when no issue fails: from the test `i <
max_aio` it reaches the completion loop after `max_aio - i + 1` steps, and a
property kept by every step of the loop holds there. -/
theorem fill_loop {e : Env} (hok : AllOk e) (P : State → Prop)
    (hP : ∀ x, Reach e x → (∃ i m, x.pc = .fill i m) → P x → P (step e x)) :
    ∀ (d : Nat) (s : State) (i : Nat) (m : Int), Reach e s → s.pc = .fill i m →
      (m - (i : Int)).toNat = d → P s →
      (runFrom e s (d + 1)).pc = .poll 0 ∧ P (runFrom e s (d + 1)) := by
  intro d
  induction d with
  | zero =>
    intro s i m hr hpc hd hPs
    have hi : ¬ (i : Int) < m := by omega
    have h1 := fill_step_pc hok hr hpc
    rw [if_neg hi] at h1
    exact ⟨h1, hP s hr ⟨i, m, hpc⟩ hPs⟩
  | succ d ih =>
    intro s i m hr hpc hd hPs
    have hi : (i : Int) < m := by omega
    have h1 := fill_step_pc hok hr hpc
    rw [if_pos hi] at h1
    exact ih (step e s) (i + 1) m hr.step_reach h1 (by push_cast; omega) (hP s hr ⟨i, m, hpc⟩ hPs)

theorem poll_step_pc {e : Env} (hok : AllOk e) {s : State} (hr : Reach e s) {j : Nat}
    (hpc : s.pc = .poll j) :
    (step e s).pc = if j < concurr e then .poll (u32 (j + 1)) else .check := by
  apply step_cases_poll e s j hpc
    (fun x => x.pc = if j < concurr e then Pc.poll (u32 (j + 1)) else Pc.check)
  case poll_exit => intro hj; simp [hj]
  case poll_empty => intro hj _; simp [hj]
  case poll_wait => intro op hj _ _; simp [hj]
  case poll_bad =>
    intro op _ hc _ hneg
    have := hok.result _ (poll_op_lt hr.inv hr.slotInv hpc hc)
    omega
  case poll_ok => intro op hj _ _ _; simp [hj]

/-- The completion loop runs to its end when no completion fails: from the
test `j < concurr` it reaches line 109 after `concurr - j + 1` steps, and a
property kept by every step of the loop holds there. -/
theorem poll_loop {e : Env} (hok : AllOk e) (h32 : concurr e < 2 ^ 32) (P : State → Prop)
    (hP : ∀ x, Reach e x → (∃ j, x.pc = .poll j) → P x → P (step e x)) :
    ∀ (d : Nat) (s : State) (j : Nat), Reach e s → s.pc = .poll j →
      j + d = concurr e → P s →
      (runFrom e s (d + 1)).pc = .check ∧ P (runFrom e s (d + 1)) := by
  intro d
  induction d with
  | zero =>
    intro s j hr hpc hd hPs
    have hj : ¬ j < concurr e := by omega
    have h1 := poll_step_pc hok hr hpc
    rw [if_neg hj] at h1
    exact ⟨h1, hP s hr ⟨j, hpc⟩ hPs⟩
  | succ d ih =>
    intro s j hr hpc hd hPs
    have hj : j < concurr e := by omega
    have h1 := poll_step_pc hok hr hpc
    rw [if_pos hj, u32_of_lt (by omega)] at h1
    exact ih (step e s) (j + 1) hr.step_reach h1 (by omega) (hP s hr ⟨j, hpc⟩ hPs)

theorem occupied_pos_of_getD {l : List (Option Nat)} {j op : Nat}
    (h : l.getD j none = some op) : 0 < occupied l := by
  have := occupied_set_none l j op h
  omega

theorem occupied_eq_zero {l : List (Option Nat)}
    (h : ∀ j, j < l.length → l.getD j none = none) : occupied l = 0 := by
  induction l with
  | nil => rfl
  | cons a l ih =>
    have h0 := h 0 (by simp)
    simp at h0
    subst h0
    have : occupied l = 0 := ih (fun j hj => by simpa using h (j + 1) (by simpa using hj))
    simpa [occupied, List.countP_cons] using this

/-- With a concurrency in the range of `int`, `max_aio` is the smaller of
`concurr` and the number of chunks not yet sent. -/
theorem max_aio_of_eq {e : Env} (h31 : concurr e < 2 ^ 31) {t : Nat} (ht : t ≤ chunk_num e) :
    max_aio_of e t = ((min (concurr e) (chunk_num e - t) : Nat) : Int) := by
  unfold max_aio_of
  rw [usub64_of_le ht (chunk_num_lt e)]
  split
  · next h => rw [toInt32_of_lt h31, Nat.min_eq_left h]
  · next h =>
    rw [toInt32_of_lt (by omega), Nat.min_eq_right (by omega)]

/-! ## Termination when every operation succeeds and completes -/

theorem EventuallyComplete.bound {e : Env} (h : EventuallyComplete e) :
    ∃ T, CompleteFrom e T := by
  have key : ∀ N, N ≤ chunk_num e →
      ∃ T, ∀ op, op < N → ∀ t, T ≤ t → e.is_complete op t = true := by
    intro N
    induction N with
    | zero => intro _; exact ⟨0, fun op hop => absurd hop (Nat.not_lt_zero _)⟩
    | succ N ih =>
      intro hN
      obtain ⟨T1, h1⟩ := ih (by omega)
      obtain ⟨T2, h2⟩ := h N (by omega)
      refine ⟨max T1 T2, ?_⟩
      intro op hop t ht
      rcases Nat.lt_succ_iff_lt_or_eq.mp hop with hlt | heq
      · exact h1 op hlt t (le_trans (le_max_left _ _) ht)
      · subst heq; exact h2 t (le_trans (le_max_right _ _) ht)
  exact key (chunk_num e) (Nat.le_refl _)

theorem FillKeeps.fill_kept {e : Env} (hok : AllOk e) {s : State} {m : Int} {x : State}
    (hr : Reach e x) (hx : ∃ i m', x.pc = .fill i m') (h : FillKeeps e s m x) :
    FillKeeps e s m (step e x) := by
  obtain ⟨i, m', hpc⟩ := hx
  obtain ⟨hc, ho⟩ := h
  apply step_cases_fill e x i m' hpc (fun y => FillKeeps e s m y)
  case fill_exit =>
    intro hi
    refine ⟨hc, fun hne => ?_⟩
    rcases ho hne with h1 | ⟨h2, h3⟩
    · exact Or.inl h1
    · rw [hpc] at h2
      cases h2
      exact absurd h3 (by simpa using hi)
  case fill_skip =>
    intro op _ hs
    exact ⟨hc, fun _ => Or.inl (occupied_pos_of_getD hs)⟩
  case fill_fail =>
    intro hi _ hneg
    have := hok.issue _ (fill_target_lt hr.inv hpc hi)
    omega
  case fill_issue =>
    intro hi hs _
    refine ⟨hc, fun _ => Or.inl ?_⟩
    show 0 < occupied (x.cvec.set i (some x.target_chunk))
    rw [occupied_set_some _ _ _ (fill_index_lt hr.inv hpc hi) hs]
    omega

theorem PollKeeps.poll_kept {e : Env} (hok : AllOk e) (h32 : concurr e < 2 ^ 32) {T : Nat}
    (hT : CompleteFrom e T) {s s2 x : State}
    (hr : Reach e x) (hx : ∃ j, x.pc = .poll j) (h : PollKeeps e T s s2 x) :
    PollKeeps e T s s2 (step e x) := by
  obtain ⟨j, hpc⟩ := hx
  obtain ⟨ht, hclk, hk⟩ := h
  apply step_cases_poll e x j hpc (fun y => PollKeeps e T s s2 y)
  case poll_exit =>
    intro hj
    refine ⟨ht, Nat.le_succ_of_le hclk, fun hTs => ⟨by simp, ?_⟩⟩
    intro _ j' hj'
    exact (hk hTs).1 j hpc j' (by omega)
  case poll_empty =>
    intro hj hc
    refine ⟨ht, Nat.le_succ_of_le hclk, fun hTs => ⟨?_, by simp⟩⟩
    intro j0 h0 j' hj'
    simp only [Pc.poll.injEq] at h0
    rw [u32_of_lt (by omega)] at h0
    subst h0
    rcases Nat.lt_succ_iff_lt_or_eq.mp hj' with hlt | heq
    · exact (hk hTs).1 j hpc j' hlt
    · subst heq; exact hc
  case poll_wait =>
    intro op hj hc hd
    refine ⟨ht, Nat.le_succ_of_le hclk, fun hTs => ?_⟩
    have := hT op (poll_op_lt hr.inv hr.slotInv hpc hc) x.clock (le_trans hTs hclk)
    rw [this] at hd; cases hd
  case poll_bad =>
    intro op _ hc _ hneg
    have := hok.result _ (poll_op_lt hr.inv hr.slotInv hpc hc)
    omega
  case poll_ok =>
    intro op hj hc _ _
    have hjl := getD_lt_length _ _ _ hc
    refine ⟨ht, Nat.le_succ_of_le hclk, fun hTs => ⟨?_, by simp⟩⟩
    intro j0 h0 j' hj'
    simp only [Pc.poll.injEq] at h0
    rw [u32_of_lt (by omega)] at h0
    subst h0
    show (x.cvec.set j none).getD j' none = none
    rcases Nat.lt_succ_iff_lt_or_eq.mp hj' with hlt | heq
    · rw [getD_set_ne _ _ _ _ (by omega)]
      exact (hk hTs).1 j hpc j' hlt
    · subst heq; exact getD_set_eq _ _ _ hjl

/-- One body of `for (;;)`: begun at line 71, it ends in a return or back at
line 71, and once time `T` has come it acknowledges at least one chunk. -/
theorem pass {e : Env} (hok : AllOk e) (h0 : 0 < concurr e) (h31 : concurr e < 2 ^ 31)
    {T : Nat} (hT : CompleteFrom e T) {s : State} (hr : Reach e s) (hpc : s.pc = .head) :
    ∃ k, 1 ≤ k ∧ ((runFrom e s k).pc = .done ∨
      ((runFrom e s k).pc = .head ∧
        (T ≤ s.clock → s.complete_count < (runFrom e s k).complete_count))) := by
  have hI := hr.inv
  -- line 71-75
  let m := max_aio_of e s.target_chunk
  have hs1 := @step_of_head e s hpc
  have hr1 : Reach e (step e s) := hr.step_reach
  have hpc1 : (step e s).pc = .fill 0 m := by rw [hs1]
  have hF1 : FillKeeps e s m (step e s) := by
    rw [hs1]
    refine ⟨rfl, fun hne => ?_⟩
    by_cases hocc : 0 < occupied s.cvec
    · exact Or.inl hocc
    · refine Or.inr ⟨rfl, ?_⟩
      have hcnt := hI.count (by rw [hpc]; trivial)
      have hcl := hI.complete_le
      have hm : m = ((min (concurr e) (chunk_num e - s.target_chunk) : Nat) : Int) :=
        max_aio_of_eq h31 hI.target_le
      rw [hm]
      have : 0 < min (concurr e) (chunk_num e - s.target_chunk) := by
        rw [Nat.lt_min]; omega
      exact_mod_cast this
  -- lines 78-90
  obtain ⟨hpc2, hF2⟩ := fill_loop hok (FillKeeps e s m)
    (fun x hx hfx hk => FillKeeps.fill_kept hok hx hfx hk)
    (m - ((0 : Nat) : Int)).toNat (step e s) 0 m hr1 hpc1 rfl hF1
  generalize hd : (m - ((0 : Nat) : Int)).toNat = d at hpc2 hF2
  have hr2 : Reach e (runFrom e (step e s) (d + 1)) := hr1.runFrom_reach _
  have hclk2 : s.clock ≤ (runFrom e (step e s) (d + 1)).clock :=
    le_trans (step_clock_le e s) (runFrom_clock_le e _ _)
  -- lines 93-107
  have hP2 : PollKeeps e T s (runFrom e (step e s) (d + 1)) (runFrom e (step e s) (d + 1)) := by
    refine ⟨rfl, hclk2, fun _ => ⟨?_, ?_⟩⟩
    · intro j hj j' hj'
      rw [hpc2] at hj
      cases hj
      exact absurd hj' (Nat.not_lt_zero _)
    · intro hc; rw [hpc2] at hc; cases hc
  obtain ⟨hpc3, hP3⟩ := poll_loop hok (by omega)
    (PollKeeps e T s (runFrom e (step e s) (d + 1)))
    (fun x hx hpx hk => PollKeeps.poll_kept hok (by omega) hT hx hpx hk)
    (concurr e) (runFrom e (step e s) (d + 1)) 0 hr2 hpc2 (by omega) hP2
  have hr3 : Reach e (runFrom e (runFrom e (step e s) (d + 1)) (concurr e + 1)) :=
    hr2.runFrom_reach _
  generalize hs2 : runFrom e (step e s) (d + 1) = s2 at *
  generalize hs3 : runFrom e s2 (concurr e + 1) = s3 at *
  -- line 109
  have hrun : runFrom e s (((1 + (d + 1)) + (concurr e + 1)) + 1) = step e s3 := by
    rw [runFrom_succ, runFrom_add e s (1 + (d + 1)) (concurr e + 1),
      runFrom_add e s 1 (d + 1)]
    show step e (runFrom e (runFrom e (step e s) (d + 1)) (concurr e + 1)) = step e s3
    rw [hs2, hs3]
  refine ⟨((1 + (d + 1)) + (concurr e + 1)) + 1, by omega, ?_⟩
  rw [hrun]
  by_cases hfin : s3.complete_count = chunk_num e
  · left; rw [step_of_check_done hpc3 hfin]
  · right
    rw [step_of_check_again hpc3 hfin]
    refine ⟨rfl, fun hTs => ?_⟩
    show s.complete_count < s3.complete_count
    have hempty := (hP3.2.2 hTs).2 hpc3
    have hocc3 : occupied s3.cvec = 0 :=
      occupied_eq_zero (fun j hj => hempty j (by rw [← hr3.inv.len]; exact hj))
    have hcnt3 := hr3.inv.count (by rw [hpc3]; trivial)
    have hcnt2 := hr2.inv.count (by rw [hpc2]; trivial)
    have ht3 := hP3.1
    have hc2 := hF2.1
    have hcl3 := hr3.inv.complete_le
    have hne : s.complete_count ≠ chunk_num e := by omega
    rcases hF2.2 hne with hpos | ⟨hbad, _⟩
    · omega
    · rw [hpc2] at hbad; cases hbad

/-- From any pass on, the sweep returns or begins a pass at time `T` or
later. -/
theorem reach_late {e : Env} (hok : AllOk e) (h0 : 0 < concurr e) (h31 : concurr e < 2 ^ 31)
    {T : Nat} (hT : CompleteFrom e T) :
    ∀ (d : Nat) (s : State), Reach e s → s.pc = .head → T - s.clock ≤ d →
      ∃ k, (runFrom e s k).pc = .done ∨
        ((runFrom e s k).pc = .head ∧ T ≤ (runFrom e s k).clock) := by
  intro d
  induction d with
  | zero =>
    intro s _ hpc hd
    exact ⟨0, Or.inr ⟨hpc, by show T ≤ s.clock; omega⟩⟩
  | succ d ih =>
    intro s hr hpc hd
    obtain ⟨k, hk1, hk⟩ := pass hok h0 h31 hT hr hpc
    rcases hk with hdone | ⟨hhead, _⟩
    · exact ⟨k, Or.inl hdone⟩
    · have hclk := runFrom_clock e s k (by rw [hhead]; simp)
      obtain ⟨k', hk'⟩ := ih (runFrom e s k) (hr.runFrom_reach k) hhead (by omega)
      exact ⟨k + k', by rw [runFrom_add]; exact hk'⟩

/-- From a pass begun at time `T` or later, the sweep returns. -/
theorem return_late {e : Env} (hok : AllOk e) (h0 : 0 < concurr e) (h31 : concurr e < 2 ^ 31)
    {T : Nat} (hT : CompleteFrom e T) :
    ∀ (d : Nat) (s : State), Reach e s → s.pc = .head → T ≤ s.clock →
      chunk_num e - s.complete_count ≤ d → ∃ k, (runFrom e s k).pc = .done := by
  intro d
  induction d with
  | zero =>
    intro s hr hpc hTs hd
    obtain ⟨k, _, hk⟩ := pass hok h0 h31 hT hr hpc
    rcases hk with hdone | ⟨_, hlt⟩
    · exact ⟨k, hdone⟩
    · have := hlt hTs
      have := (hr.runFrom_reach k).inv.complete_le
      omega
  | succ d ih =>
    intro s hr hpc hTs hd
    obtain ⟨k, _, hk⟩ := pass hok h0 h31 hT hr hpc
    rcases hk with hdone | ⟨hhead, hlt⟩
    · exact ⟨k, hdone⟩
    · have hlt' := hlt hTs
      have hclk := runFrom_clock_le e s k
      obtain ⟨k', hk'⟩ := ih (runFrom e s k) (hr.runFrom_reach k) hhead (by omega) (by omega)
      exact ⟨k + k', by rw [runFrom_add]; exact hk'⟩

/-- A sweep in which every operation succeeds and completes returns. -/
theorem returns_of_ok {e : Env} (hok : AllOk e) (h0 : 0 < concurr e) (h31 : concurr e < 2 ^ 31)
    (hev : EventuallyComplete e) : ∃ n, (run e n).pc = .done := by
  obtain ⟨T, hT⟩ := hev.bound
  have hinit : (run e 0).pc = .head := by
    show (init e).pc = .head
    unfold init
    rw [if_neg (by simp [hok.size])]
  obtain ⟨k, hk⟩ := reach_late hok h0 h31 hT (T - (run e 0).clock) (run e 0) ⟨0, rfl⟩ hinit
    (Nat.le_refl _)
  rcases hk with hdone | ⟨hhead, hlate⟩
  · exact ⟨0 + k, by rw [run_add]; exact hdone⟩
  · obtain ⟨k', hk'⟩ := return_late hok h0 h31 hT
      (chunk_num e - (runFrom e (run e 0) k).complete_count) (runFrom e (run e 0) k)
      (Reach.runFrom_reach ⟨0, rfl⟩ k) hhead hlate (Nat.le_refl _)
    exact ⟨(0 + k) + k', by rw [run_add, run_add]; exact hk'⟩

/-! ## The error path as a whole -/

theorem writes_grow {l1 l2 : List Event} (h : l1 <+: l2) : writes l1 <+: writes l2 := by
  obtain ⟨t, rfl⟩ := h
  rw [writes_append]; exact List.prefix_append _ _

theorem allocs_grow {l1 l2 : List Event} (h : l1 <+: l2) : allocs l1 <+: allocs l2 := by
  obtain ⟨t, rfl⟩ := h
  rw [allocs_append]; exact List.prefix_append _ _

theorem allocs_map_release (rel : List Nat) : allocs (rel.map Event.release) = [] := by
  induction rel with
  | nil => rfl
  | cons a l ih => simpa [allocs] using ih

theorem prefix_antisymm {α : Type} {l1 l2 : List α} (h1 : l1 <+: l2) (h2 : l2 <+: l1) :
    l1 = l2 :=
  h1.eq_of_length (Nat.le_antisymm h1.length_le h2.length_le)

theorem run_of_returned {e : Env} {n : Nat} (h : (run e n).pc = .done) {m : Nat} (hm : n ≤ m) :
    run e m = run e n := by
  obtain ⟨k, rfl⟩ := Nat.exists_eq_add_of_le hm
  rw [run_add]; exact runFrom_of_done h k

theorem error_exit {e : Env} {n : Nat} (h32 : concurr e < 2 ^ 32)
    (hpc : (run e n).pc = .cleanup 0) : ErrorExit e n := by
  obtain ⟨rel, hc⟩ := cleanup_run hpc (Inv.inv_run e n).len h32
  rw [← run_add] at hc
  have hrun := (LogInv.log_run e n).running (by rw [hpc]; simp)
  have hw : writes (run e (n + (concurr e + 1))).log = writes (run e n).log := by
    rw [hc.log]; simp [writes_append, writes_map_release, writes]
  have ha : allocs (run e (n + (concurr e + 1))).log = allocs (run e n).log := by
    rw [hc.log]; simp [allocs_append, allocs_map_release, allocs]
  have hfin : Event.finish ∉ (run e (n + (concurr e + 1))).log := by
    rw [hc.log]; simpa using hrun.2.1
  refine ⟨hc.pc, ⟨rel, hc⟩, ?_, ?_, ?_⟩
  · intro m hm
    by_cases hle : m ≤ n + (concurr e + 1)
    · apply (prefix_antisymm (writes_grow (run_log_grows e hm)) _).symm
      rw [← hw]; exact writes_grow (run_log_grows e hle)
    · rw [run_of_returned hc.pc (by omega), hw]
  · intro m hm
    by_cases hle : m ≤ n + (concurr e + 1)
    · apply (prefix_antisymm (allocs_grow (run_log_grows e hm)) _).symm
      rw [← ha]; exact allocs_grow (run_log_grows e hle)
    · rw [run_of_returned hc.pc (by omega), ha]
  · intro m hmem
    by_cases hle : m ≤ n + (concurr e + 1)
    · exact hfin ((run_log_grows e hle).subset hmem)
    · rw [run_of_returned hc.pc (by omega)] at hmem; exact hfin hmem

/-! ## Statements about `write_data` -/

theorem write_data_eq_some {e : Env} {n : Nat} {v : Int} (hd : (run e n).pc = .done)
    (hr : (run e n).r = v) : write_data e n = some v := by
  unfold write_data; rw [if_pos hd, hr]

theorem write_data_eq_none {e : Env} {n : Nat} (hd : ¬ returned (run e n)) :
    write_data e n = none := by
  unfold write_data; exact if_neg hd

theorem promptEnv_ok (ops : Int) (size : Nat) : AllOk (promptEnv ops size) :=
  ⟨rfl, fun _ _ => Int.le_refl _, fun _ _ => Int.le_refl _⟩

/-- C1: in a sweep in which all operations succeed, a `write_data` that has
returned has issued exactly `image_size / chunk_size` writes (truncating
division); in every sweep, at every moment, no write has been issued at an
offset `>= chunk_num * chunk_size`, so the final partial chunk is never
written; and such a sweep does return, with that many writes issued, when the
concurrency is not 0 and in the range of `int` and every handle answers
`is_complete()` from some time on. -/
theorem write_data_issues_every_whole_chunk (e : Env) (n : Nat) :
    (AllOk e → returned (run e n) →
      (writes (run e n).log).length = image_size e / chunk_size) ∧
    (∀ o l, (o, l) ∈ writes (run e n).log → o < chunk_num e * chunk_size) ∧
    (AllOk e → 0 < concurr e → concurr e < 2 ^ 31 → EventuallyComplete e →
      ∃ k, returned (run e k) ∧
        (writes (run e k).log).length = image_size e / chunk_size) := by
  refine ⟨fun hok hret => ?_, fun o l hmem => ?_, fun hok h0 h31 hev => ?_⟩
  · exact (exit_finish_of_ok hok ⟨n, rfl⟩ hret).2.2.2.2.1
  · have hL := LogInv.log_run e n
    rw [hL.writes_eq] at hmem
    obtain ⟨k, hk, hkeq⟩ := List.mem_map.mp hmem
    have hk' : k < (writes (run e n).log).length := List.mem_range.mp hk
    have ho : o = k * chunk_size := by
      have := congrArg Prod.fst hkeq
      simpa using this.symm
    rw [ho]
    exact Nat.mul_lt_mul_of_pos_right (Nat.lt_of_lt_of_le hk' hL.writes_le) chunk_size_pos
  · obtain ⟨k, hk⟩ := returns_of_ok hok h0 h31 hev
    exact ⟨k, hk, (exit_finish_of_ok hok ⟨k, rfl⟩ hk).2.2.2.2.1⟩

/-- Witness of C1: ten chunks and four slots, every write complete at the
first poll; the sweep has returned after 60 steps with ten writes issued. -/
theorem write_data_issues_every_whole_chunk_witness :
    returned (run (promptEnv 4 (10 * 1024 * 1024)) 60) ∧
    (writes (run (promptEnv 4 (10 * 1024 * 1024)) 60).log).length = 10 ∧
    (writes (run (promptEnv 4 (10 * 1024 * 1024)) 60).log).length =
      image_size (promptEnv 4 (10 * 1024 * 1024)) / chunk_size :=
  ⟨by decide!, by decide!,
    (write_data_issues_every_whole_chunk (promptEnv 4 (10 * 1024 * 1024)) 60).1
      (promptEnv_ok _ _) (by decide!)⟩

/-- C5: when the image size query fails, `write_data` has returned at once
(no step is taken) with `-EINVAL`, and at no time has it called anything: no
write, no handle created or released, no `update_progress`, `finish` or
`fail`. -/
theorem write_data_size_query_failure (e : Env) (h : e.size_ret ≠ 0) (n : Nat) :
    write_data e 0 = some (-e.EINVAL) ∧ write_data e n = some (-e.EINVAL) ∧
    (run e n).log = [] := by
  have h0 : run e 0 = init e := rfl
  have hi : (init e).pc = .done ∧ (init e).r = -e.EINVAL ∧ (init e).log = [] := by
    unfold init
    rw [if_pos h]
    exact ⟨rfl, rfl, rfl⟩
  have hd : (run e 0).pc = .done := by rw [h0]; exact hi.1
  have hn : run e n = run e 0 := run_of_returned hd (Nat.zero_le n)
  have hr0 : (run e 0).r = -e.EINVAL := by rw [h0]; exact hi.2.1
  refine ⟨write_data_eq_some hd hr0, write_data_eq_some (by rw [hn]; exact hd)
    (by rw [hn]; exact hr0), ?_⟩
  rw [hn, h0]; exact hi.2.2

/-- Witness of C5: a size query answering `-2`. -/
theorem write_data_size_query_failure_witness :
    noSizeEnv.size_ret ≠ 0 ∧ write_data noSizeEnv 7 = some (-22) ∧
    (run noSizeEnv 7).log = [] :=
  ⟨by decide, (write_data_size_query_failure noSizeEnv (by decide) 7).2.1,
    (write_data_size_query_failure noSizeEnv (by decide) 7).2.2⟩

/-- C9: at every moment of every sweep, whatever the completion order, the
`k`-th write issued so far (counting from 0) has offset `k * chunk_size` and
length `chunk_size`; the offsets are strictly increasing. -/
theorem write_data_issues_in_offset_order (e : Env) (n : Nat) :
    writes (run e n).log =
      (List.range (writes (run e n).log).length).map (fun k => (k * chunk_size, chunk_size)) ∧
    (writes (run e n).log).Pairwise (fun a b => a.1 < b.1) := by
  have h := (LogInv.log_run e n).writes_eq
  refine ⟨h, ?_⟩
  rw [h, List.pairwise_map]
  refine List.Pairwise.imp ?_ (List.pairwise_lt_range _)
  intro a b hab
  exact Nat.mul_lt_mul_of_pos_right hab chunk_size_pos

/-- C10: in every reachable state `complete_count <= chunk_num`, and every
step leaves `complete_count` unchanged or increases it by exactly one. -/
theorem complete_count_monotone_bounded (e : Env) (n : Nat) :
    (run e n).complete_count ≤ chunk_num e ∧
    ((run e (n + 1)).complete_count = (run e n).complete_count ∨
     (run e (n + 1)).complete_count = (run e n).complete_count + 1) := by
  have hI := Inv.inv_run e n
  refine ⟨hI.complete_le, ?_⟩
  rw [run_succ]
  apply step_cases e (run e n)
    (fun x => x.complete_count = (run e n).complete_count ∨
      x.complete_count = (run e n).complete_count + 1)
  case poll_ok =>
    intro j op hpc _ hc _ _
    right
    have hcnt := hI.count (by rw [hpc]; trivial)
    have hocc := occupied_set_none _ _ _ hc
    have hN := chunk_num_lt e
    have := hI.target_le
    exact u64_of_lt (by omega)
  all_goals (intros; exact Or.inl rfl)

/-! ## Sweeps that send nothing -/

/-- The completion loop over empty slots only moves on. -/
theorem poll_over_empty {e : Env} (h32 : concurr e < 2 ^ 32) (c p : Nat) :
    ∀ k, k ≤ concurr e →
      runFrom e (idleState e (.poll 0) c p []) k = idleState e (.poll k) (c + k) p [] := by
  intro k
  induction k with
  | zero => intro _; rfl
  | succ k ih =>
    intro hk
    rw [runFrom_succ, ih (by omega)]
    apply step_cases_poll e _ k rfl (fun x => x = idleState e (.poll (k + 1)) (c + (k + 1)) p [])
    case poll_exit => intro h; omega
    case poll_empty =>
      intro _ _
      simp [idleState, u32_of_lt (show k + 1 < 2 ^ 32 by omega), Nat.add_assoc]
    case poll_wait => intro op _ h; simp [idleState, getD_replicate] at h
    case poll_bad => intro op _ h; simp [idleState, getD_replicate] at h
    case poll_ok => intro op _ h; simp [idleState, getD_replicate] at h

theorem chunk_num_eq_zero {e : Env} (h : image_size e < chunk_size) : chunk_num e = 0 :=
  Nat.div_eq_of_lt h

theorem max_aio_of_zero {e : Env} (h : chunk_num e = 0) : max_aio_of e 0 = 0 := by
  unfold max_aio_of
  rw [h]
  have h0 : usub64 0 0 = 0 := by decide
  rw [h0]
  split
  · next hc =>
    have : concurr e = 0 := by omega
    rw [this]; decide
  · decide

theorem run_zero_of_size_ok {e : Env} (hsz : e.size_ret = 0) :
    run e 0 = idleState e .head 0 0 [] := by
  show init e = _
  unfold init
  rw [if_neg (by simp [hsz])]
  rfl

/-- A sweep over less than one chunk: one pass of `for (;;)` in which the send
loop ends at once and the completion loop walks over the empty slots. -/
theorem empty_sweep_run {e : Env} (hsz : e.size_ret = 0) (hsmall : image_size e < chunk_size)
    (h32 : concurr e < 2 ^ 32) :
    run e (concurr e + 4) = idleState e .done (concurr e + 4) 1 [Event.finish] := by
  have hcn := chunk_num_eq_zero hsmall
  have h0 := run_zero_of_size_ok hsz
  have h1 : run e 1 = idleState e (.fill 0 0) 1 1 [] := by
    rw [run_succ, h0, step_of_head rfl]
    simp [idleState, max_aio_of_zero hcn]
  have h2 : run e 2 = idleState e (.poll 0) 2 1 [] := by
    rw [run_succ, h1]
    apply step_cases_fill e _ 0 0 rfl (fun x => x = _)
    case fill_exit => intro _; rfl
    all_goals (intros; simp_all)
  have h3 : run e (2 + concurr e) = idleState e (.poll (concurr e)) (2 + concurr e) 1 [] := by
    rw [run_add, h2, poll_over_empty h32 2 1 (concurr e) (Nat.le_refl _)]
  have h4 : run e (2 + concurr e + 1) = idleState e .check (2 + concurr e + 1) 1 [] := by
    rw [run_succ, h3]
    apply step_cases_poll e _ (concurr e) rfl (fun x => x = _)
    case poll_exit => intro _; rfl
    all_goals (intros; omega)
  have h5 : run e (2 + concurr e + 1 + 1) =
      idleState e .done (2 + concurr e + 1 + 1) 1 [Event.finish] := by
    rw [run_succ, h4, step_of_check_done rfl (by simp [idleState, hcn])]
    simp [idleState]
  rw [show concurr e + 4 = 2 + concurr e + 1 + 1 by omega]
  exact h5

/-- With no slot at all and at least one chunk to send, `for (;;)` goes round
without sending and without ever leaving. -/
theorem spin_without_slots {e : Env} (hsz : e.size_ret = 0) (hc : concurr e = 0)
    (hbig : chunk_size ≤ image_size e) (n : Nat) :
    ∃ pc c p, run e n = idleState e pc c p [] ∧
      (pc = .head ∨ pc = .fill 0 0 ∨ pc = .poll 0 ∨ pc = .check) := by
  have hcn : 0 < chunk_num e := Nat.div_pos hbig chunk_size_pos
  have hmax : max_aio_of e 0 = 0 := by
    unfold max_aio_of
    rw [hc]
    simp
    decide
  induction n with
  | zero => exact ⟨.head, 0, 0, run_zero_of_size_ok hsz, Or.inl rfl⟩
  | succ n ih =>
    obtain ⟨pc, c, p, hrun, hpc⟩ := ih
    rw [run_succ, hrun]
    rcases hpc with rfl | rfl | rfl | rfl
    · refine ⟨.fill 0 0, c + 1, p + 1, ?_, Or.inr (Or.inl rfl)⟩
      rw [step_of_head rfl]
      simp [idleState, hmax]
    · refine ⟨.poll 0, c + 1, p, ?_, Or.inr (Or.inr (Or.inl rfl))⟩
      apply step_cases_fill e _ 0 0 rfl (fun x => x = _)
      case fill_exit => intro _; rfl
      all_goals (intros; simp_all)
    · refine ⟨.check, c + 1, p, ?_, Or.inr (Or.inr (Or.inr rfl))⟩
      apply step_cases_poll e _ 0 rfl (fun x => x = _)
      case poll_exit => intro _; rfl
      all_goals (intros; omega)
    · refine ⟨.head, c + 1, p, ?_, Or.inl rfl⟩
      rw [step_of_check_again rfl (by simp [idleState]; omega)]
      rfl

/-- C3, as stated, fails: an image of one chunk and a half, one slot, every
write complete at the first poll. All operations succeed and `write_data` has
returned 0 after 12 steps, but the last `update_progress` call has `done` =
1 MiB while `total` = `image_size` = 1.5 MiB. -/
theorem final_update_counterexample :
    AllOk (promptEnv 1 1572864) ∧
    write_data (promptEnv 1 1572864) 12 = some 0 ∧
    image_size (promptEnv 1 1572864) = 1572864 ∧
    (run (promptEnv 1 1572864) 12).log =
      [Event.alloc 0, Event.write 0 1048576, Event.release 0,
       Event.update_progress 1048576 1572864, Event.finish] ∧
    ¬ (∀ d t, (updates (run (promptEnv 1 1572864) 12).log).getLast? = some (d, t) → d = t) := by
  refine ⟨promptEnv_ok _ _, by decide!, by decide!, by decide!, ?_⟩
  intro h
  have hlast : (updates (run (promptEnv 1 1572864) 12).log).getLast? =
      some (1048576, 1572864) := by decide!
  exact absurd (h _ _ hlast) (by decide)

/-- C3, amended: for a concurrency in the range of `int` and not 0, if every
operation succeeds and every handle of the sweep answers `is_complete()` from
some time on, then `write_data` returns, the value returned is not negative,
`pc.finish()` is its last call and `pc.fail()` is never called; when
`image_size >= chunk_size` the call just before `pc.finish()` is
`update_progress(chunk_num * chunk_size, image_size)`, whose `done` equals
`total` exactly when `image_size` is a multiple of `chunk_size`; when
`image_size < chunk_size` there is no `update_progress` call. -/
theorem write_data_success (e : Env) (hok : AllOk e) (h0 : 0 < concurr e)
    (h31 : concurr e < 2 ^ 31) (hev : EventuallyComplete e) :
    ∃ n r, write_data e n = some r ∧ 0 ≤ r ∧
      (∃ l, (run e n).log = l ++ [Event.finish] ∧ Event.finish ∉ l ∧ Event.fail ∉ l ∧
        (0 < chunk_num e → ∃ l',
          l = l' ++ [Event.update_progress (chunk_num e * chunk_size) (image_size e)])) ∧
      (chunk_num e = 0 → updates (run e n).log = []) ∧
      (chunk_num e * chunk_size = image_size e ↔ image_size e % chunk_size = 0) := by
  obtain ⟨n, hn⟩ := returns_of_ok hok h0 h31 hev
  have hx := exit_finish_of_ok hok ⟨n, rfl⟩ hn
  refine ⟨n, (run e n).r, write_data_eq_some hn rfl, (OkInv.ok_run hok n).r_nonneg,
    hx.2.1, ?_, ?_⟩
  · intro hz
    have := (LogInv.log_run e n).updates_eq
    rw [hx.2.2.1, hz] at this
    simpa using this
  · unfold chunk_num
    constructor
    · intro h
      have := Nat.div_add_mod (image_size e) chunk_size
      rw [Nat.mul_comm] at this
      omega
    · intro h
      have := Nat.div_add_mod (image_size e) chunk_size
      rw [Nat.mul_comm] at this
      omega

/-- Witness of C3 amended: ten chunks, four slots, every write complete at the
first poll. -/
theorem write_data_success_witness :
    0 < concurr (promptEnv 4 (10 * 1024 * 1024)) ∧
    ∃ n r, write_data (promptEnv 4 (10 * 1024 * 1024)) n = some r ∧ 0 ≤ r :=
  ⟨by decide!,
    (write_data_success (promptEnv 4 (10 * 1024 * 1024)) (promptEnv_ok _ _) (by decide!)
      (by decide!) (fun _ _ => ⟨0, fun _ _ => rfl⟩)).imp
      (fun _ h => h.imp (fun _ h' => ⟨h'.1, h'.2.1⟩))⟩

/-- C4, as stated, fails: with a configured concurrency of 0 and an empty
image, `write_data` enters the loop, calls `pc.finish()` and returns 0, which is
not an error. -/
theorem zero_concurrency_counterexample :
    (promptEnv 0 0).rbd_concurrent_management_ops ≤ 0 ∧
    write_data (promptEnv 0 0) 4 = some 0 ∧
    (run (promptEnv 0 0) 4).passes = 1 ∧
    (run (promptEnv 0 0) 4).log = [Event.finish] ∧
    ¬ (∃ v, write_data (promptEnv 0 0) 4 = some v ∧ v < 0) := by
  have h : write_data (promptEnv 0 0) 4 = some 0 := by decide!
  refine ⟨by decide, h, by decide!, by decide!, ?_⟩
  rintro ⟨v, hv, hneg⟩
  rw [h] at hv
  cases hv
  exact absurd hneg (by decide)

theorem concurr_of_zero {e : Env} (h : e.rbd_concurrent_management_ops = 0) :
    concurr e = 0 := by
  unfold concurr; rw [h]; rfl

/-- C4, amended: `write_data` does not check the configured concurrency. With
a concurrency of 0 (and a size query that succeeds) it issues no write and
never calls `pc.fail()`; when `image_size < chunk_size` it goes through the
loop once, calls `pc.finish()` and returns 0 (after 4 steps); when
`image_size >= chunk_size` it never returns. -/
theorem write_data_zero_concurrency (e : Env) (hz : e.rbd_concurrent_management_ops = 0)
    (hsz : e.size_ret = 0) :
    (∀ n, writes (run e n).log = [] ∧ Event.fail ∉ (run e n).log) ∧
    (image_size e < chunk_size → ∀ n, 4 ≤ n →
      write_data e n = some 0 ∧ (run e n).passes = 1 ∧ (run e n).log = [Event.finish]) ∧
    (chunk_size ≤ image_size e → ∀ n, write_data e n = none) := by
  have hc := concurr_of_zero hz
  have h32 : concurr e < 2 ^ 32 := by rw [hc]; decide
  refine ⟨?_, ?_, ?_⟩
  · intro n
    by_cases hsmall : image_size e < chunk_size
    · have hend := empty_sweep_run hsz hsmall h32
      have hd : (run e (concurr e + 4)).pc = .done := by rw [hend]; rfl
      have hpre : (run e n).log <+: [Event.finish] := by
        by_cases hn : n ≤ concurr e + 4
        · have := run_log_grows e hn
          rw [hend] at this
          exact this
        · rw [run_of_returned hd (by omega), hend]
          exact List.prefix_refl _
      constructor
      · have := writes_grow hpre
        simpa [writes] using this
      · intro hmem
        have := hpre.subset hmem
        simp at this
    · obtain ⟨pc, c, p, hrun, _⟩ := spin_without_slots hsz hc (by omega) n
      rw [hrun]
      exact ⟨rfl, by simp [idleState]⟩
  · intro hsmall n hn
    have hend := empty_sweep_run hsz hsmall h32
    have hd : (run e (concurr e + 4)).pc = .done := by rw [hend]; rfl
    have hn' := run_of_returned hd (show concurr e + 4 ≤ n by omega)
    refine ⟨write_data_eq_some (by rw [hn']; exact hd) (by rw [hn', hend]; rfl), ?_, ?_⟩
    · rw [hn', hend]; rfl
    · rw [hn', hend]; rfl
  · intro hbig n
    apply write_data_eq_none
    intro hret
    obtain ⟨pc, c, p, hrun, hpc⟩ := spin_without_slots hsz hc hbig n
    rw [hrun] at hret
    have : pc = .done := hret
    subst this
    rcases hpc with h | h | h | h <;> cases h

/-- Witness of C4 amended: concurrency 0 and an image of three chunks; after
1000 steps the call has not returned and nothing was written. -/
theorem write_data_zero_concurrency_witness :
    chunk_size ≤ image_size (promptEnv 0 (3 * 1024 * 1024)) ∧
    write_data (promptEnv 0 (3 * 1024 * 1024)) 1000 = none ∧
    writes (run (promptEnv 0 (3 * 1024 * 1024)) 1000).log = [] :=
  ⟨by decide!,
    (write_data_zero_concurrency (promptEnv 0 (3 * 1024 * 1024)) rfl rfl).2.2 (by decide!) 1000,
    ((write_data_zero_concurrency (promptEnv 0 (3 * 1024 * 1024)) rfl rfl).1 1000).1⟩

theorem count_release_eq_one (e : Env) {n m : Nat} {op : Nat} (hnm : n ≤ m)
    (h : op ∈ releases (run e n).log) : (releases (run e m).log).count op = 1 :=
  List.count_eq_one_of_mem (SlotInv.slot_run e m).rel_nodup
    ((releases_grow (run_log_grows e hnm)).subset h)

/-- C6: at every moment of every sweep no handle has been released twice; a
handle that the completion loop finds complete (at step `n`, in slot `j`) is
released by that step, its slot is emptied, and from then on it occurs exactly
once among the released handles; and when `err_writesame` is reached (at step
`n`), `write_data` returns `concurr + 1` steps later, by which time every slot
whose handle answered `is_complete()` when the loop after `err_writesame`
visited it (slot `j` at time `clock + j`) has been emptied and its handle
released exactly once. The concurrency is in the range of the loop index
`unsigned int j`. -/
theorem handles_released_once (e : Env) (n : Nat) :
    (releases (run e n).log).Nodup ∧
    (∀ j op, (run e n).pc = .poll j → j < concurr e →
      (run e n).cvec.getD j none = some op → e.is_complete op (run e n).clock = true →
      (run e (n + 1)).cvec.getD j none = none ∧
      releases (run e (n + 1)).log = releases (run e n).log ++ [op] ∧
      ∀ m, n < m → (releases (run e m).log).count op = 1) ∧
    ((run e n).pc = .cleanup 0 → concurr e < 2 ^ 32 →
      returned (run e (n + (concurr e + 1))) ∧
      ∀ j op, (run e n).cvec.getD j none = some op →
        e.is_complete op ((run e n).clock + j) = true →
        (run e (n + (concurr e + 1))).cvec.getD j none = none ∧
        ∀ m, n + (concurr e + 1) ≤ m → (releases (run e m).log).count op = 1) := by
  refine ⟨(SlotInv.slot_run e n).rel_nodup, ?_, ?_⟩
  · intro j op hpc hj hslot hdone
    have hjl := getD_lt_length _ _ _ hslot
    have hstep : (run e (n + 1)).cvec.getD j none = none ∧
        releases (run e (n + 1)).log = releases (run e n).log ++ [op] := by
      rw [run_succ]
      apply step_cases_poll e (run e n) j hpc
        (fun x => x.cvec.getD j none = none ∧ releases x.log = releases (run e n).log ++ [op])
      case poll_exit => intro h; exact absurd hj h
      case poll_empty => intro _ h; rw [hslot] at h; cases h
      case poll_wait =>
        intro op' _ h hd
        rw [hslot] at h; cases h
        rw [hdone] at hd; cases hd
      case poll_bad =>
        intro op' _ h _ _
        rw [hslot] at h; cases h
        exact ⟨getD_set_eq _ _ _ hjl, releases_snoc_release _ _⟩
      case poll_ok =>
        intro op' _ h _ _
        rw [hslot] at h; cases h
        exact ⟨getD_set_eq _ _ _ hjl, releases_snoc_update _ _ _ _⟩
    refine ⟨hstep.1, hstep.2, fun m hm => ?_⟩
    exact count_release_eq_one e (show n + 1 ≤ m from hm) (by rw [hstep.2]; simp)
  · intro hpc h32
    have hx := error_exit h32 hpc
    obtain ⟨rel, hcl⟩ := hx.cleaned
    refine ⟨hx.returned, fun j op hslot hdone => ?_⟩
    obtain ⟨h1, h2⟩ := hcl.seen j op hslot hdone
    refine ⟨h1, fun m hm => count_release_eq_one e hm ?_⟩
    rw [hcl.log]
    simp [releases_append, releases_map_release, h2]

/-- Witness of C6: five chunks, two slots, the third write completes with
`-5`. At step 12 the completion loop finds handle 2 complete in slot 0 and
releases it; at step 13 `err_writesame` is reached with handle 3 complete in
slot 1, and it has been released when the call returns at step 16. -/
theorem handles_released_once_witness :
    ((run thirdFailsEnv 13).cvec.getD 0 none = none ∧
      releases (run thirdFailsEnv 13).log = releases (run thirdFailsEnv 12).log ++ [2]) ∧
    (returned (run thirdFailsEnv (13 + (concurr thirdFailsEnv + 1))) ∧
      (run thirdFailsEnv (13 + (concurr thirdFailsEnv + 1))).cvec.getD 1 none = none ∧
      (releases (run thirdFailsEnv 16).log).count 3 = 1) :=
  ⟨⟨((handles_released_once thirdFailsEnv 12).2.1 0 2 (by decide!) (by decide!) (by decide!)
        (by decide!)).1,
    ((handles_released_once thirdFailsEnv 12).2.1 0 2 (by decide!) (by decide!) (by decide!)
        (by decide!)).2.1⟩,
   ((handles_released_once thirdFailsEnv 13).2.2 (by decide!) (by decide!)).1,
   (((handles_released_once thirdFailsEnv 13).2.2 (by decide!) (by decide!)).2 1 3
      (by decide!) (by decide!)).1,
   (((handles_released_once thirdFailsEnv 13).2.2 (by decide!) (by decide!)).2 1 3
      (by decide!) (by decide!)).2 16 (by decide!)⟩

/-! ## Further statements about `write_data` and its callers -/

/-- C11: at every instant of every sweep, whatever the configured
concurrency, the number of non-empty slots of `cvec` is at most `concurr`. -/
theorem occupied_le_concurr (e : Env) (n : Nat) : occupied (run e n).cvec ≤ concurr e := by
  rw [← (Inv.inv_run e n).len]
  exact occupied_le_length _

/-- C14: the `update_progress` calls made so far are, in order,
`(k * chunk_size, image_size)` for `k = 1, ..., complete_count`: one per
completion found successful by the completion loop, and no other. A step of
the completion loop that finds a complete handle with a non-negative result
appends exactly the next one, every other step appends none. The `done`
values are strictly increasing and none exceeds `image_size`, though nothing
caps them. -/
theorem one_update_per_completion (e : Env) (n : Nat) :
    updates (run e n).log =
      (List.range (run e n).complete_count).map
        (fun k => ((k + 1) * chunk_size, image_size e)) ∧
    (updates (run e n).log).length = (run e n).complete_count ∧
    (updates (run e n).log).Pairwise (fun a b => a.1 < b.1) ∧
    (∀ d t, (d, t) ∈ updates (run e n).log → d ≤ image_size e ∧ t = image_size e) ∧
    (∀ j op, (run e n).pc = .poll j → j < concurr e →
      (run e n).cvec.getD j none = some op → e.is_complete op (run e n).clock = true →
      0 ≤ e.get_return_value op →
      (run e (n + 1)).complete_count = (run e n).complete_count + 1 ∧
      updates (run e (n + 1)).log = updates (run e n).log ++
        [(((run e n).complete_count + 1) * chunk_size, image_size e)]) ∧
    (updates (run e (n + 1)).log = updates (run e n).log ∨
      ∃ j op, (run e n).pc = .poll j ∧ (run e n).cvec.getD j none = some op ∧
        e.is_complete op (run e n).clock = true ∧ 0 ≤ e.get_return_value op) := by
  have hI := Inv.inv_run e n
  have hL := LogInv.log_run e n
  have hL1 := LogInv.log_run e (n + 1)
  have hupd := hL.updates_eq
  refine ⟨hupd, by rw [hupd]; simp, ?_, ?_, ?_, ?_⟩
  · rw [hupd, List.pairwise_map]
    refine List.Pairwise.imp ?_ (List.pairwise_lt_range _)
    intro a b hab
    exact Nat.mul_lt_mul_of_pos_right (by omega) chunk_size_pos
  · intro d t hmem
    rw [hupd] at hmem
    obtain ⟨k, hk, hkeq⟩ := List.mem_map.mp hmem
    have hk' : k < (run e n).complete_count := List.mem_range.mp hk
    have hd : d = (k + 1) * chunk_size := (congrArg Prod.fst hkeq).symm
    have ht : t = image_size e := (congrArg Prod.snd hkeq).symm
    have h1 : (k + 1) * chunk_size ≤ chunk_num e * chunk_size :=
      Nat.mul_le_mul_right _ (by have := hI.complete_le; omega)
    have h2 := chunk_num_mul_le e
    exact ⟨by omega, ht⟩
  · intro j op hpc hj hslot hdone hres
    have hc1 : (run e (n + 1)).complete_count = (run e n).complete_count + 1 := by
      rw [run_succ]
      apply step_cases_poll e (run e n) j hpc
        (fun x => x.complete_count = (run e n).complete_count + 1)
      case poll_exit => intro h; exact absurd hj h
      case poll_empty => intro _ h; rw [hslot] at h; cases h
      case poll_wait =>
        intro op' _ h hd
        rw [hslot] at h; cases h
        rw [hdone] at hd; cases hd
      case poll_bad =>
        intro op' _ h _ hneg
        rw [hslot] at h; cases h
        omega
      case poll_ok =>
        intro op' _ h _ _
        have hcnt := hI.count (by rw [hpc]; trivial)
        have hocc := occupied_set_none _ _ _ h
        have hN := chunk_num_lt e
        have := hI.target_le
        exact u64_of_lt (by omega)
    refine ⟨hc1, ?_⟩
    rw [hL1.updates_eq, hc1, List.range_succ, List.map_append, ← hupd]
    rfl
  · rw [run_succ]
    apply step_cases e (run e n)
      (fun x => updates x.log = updates (run e n).log ∨
        ∃ j op, (run e n).pc = .poll j ∧ (run e n).cvec.getD j none = some op ∧
          e.is_complete op (run e n).clock = true ∧ 0 ≤ e.get_return_value op)
    case poll_ok =>
      intro j op hpc _ hc hd hr
      exact Or.inr ⟨j, op, hpc, hc, hd, by omega⟩
    all_goals (intros; left; simp [updates_append, updates])

/-- Witness of C14: ten chunks, four slots, every write complete at the first
poll; at step 6 the completion loop reads the first handle. -/
theorem one_update_per_completion_witness :
    updates (run (promptEnv 4 (10 * 1024 * 1024)) 6).log = [] ∧
    updates (run (promptEnv 4 (10 * 1024 * 1024)) (6 + 1)).log =
      updates (run (promptEnv 4 (10 * 1024 * 1024)) 6).log ++
        [(((run (promptEnv 4 (10 * 1024 * 1024)) 6).complete_count + 1) * chunk_size,
          image_size (promptEnv 4 (10 * 1024 * 1024)))] :=
  ⟨by decide!,
    ((one_update_per_completion (promptEnv 4 (10 * 1024 * 1024)) 6).2.2.2.2.1 0 0
      (by decide!) (by decide!) (by decide!) (by decide!) (by decide!)).2⟩

/-- C15: at every program point inside `for (;;)` (in particular at the start
of every iteration, after the send loop and after the completion loop, when
none of them took the error path) `complete_count <= target_chunk <=
chunk_num` and the number of non-empty slots of `cvec` is `target_chunk -
complete_count`. -/
theorem sweep_counters_invariant (e : Env) (n : Nat) (h : (run e n).pc.inLoop) :
    (run e n).complete_count ≤ (run e n).target_chunk ∧
    (run e n).target_chunk ≤ chunk_num e ∧
    occupied (run e n).cvec = (run e n).target_chunk - (run e n).complete_count := by
  have hI := Inv.inv_run e n
  have hc := hI.count h
  have ht := hI.target_le
  omega

/-- Witness of C15: five chunks, two slots; at step 12 (start of the second
completion loop) two chunks are acknowledged, four sent, two slots occupied. -/
theorem sweep_counters_invariant_witness :
    (run thirdFailsEnv 12).pc = .poll 0 ∧
    (run thirdFailsEnv 12).complete_count = 2 ∧ (run thirdFailsEnv 12).target_chunk = 4 ∧
    occupied (run thirdFailsEnv 12).cvec =
      (run thirdFailsEnv 12).target_chunk - (run thirdFailsEnv 12).complete_count :=
  ⟨by decide!, by decide!, by decide!,
    (sweep_counters_invariant thirdFailsEnv 12
      (by have h : (run thirdFailsEnv 12).pc = .poll 0 := by decide!
          rw [h]; trivial)).2.2⟩

/-- C16: for every `image_size` (a `uint64_t`), at every moment of every
sweep, the 64-bit products `target_chunk * chunk_size` and `complete_count *
chunk_size` equal the mathematical products, as does the product computed by
line 104 after the increment of line 103; the offsets and `done` values
passed on are these products, and every write issued lies inside the image:
`write_offset + chunk_size <= image_size`. -/
theorem products_do_not_wrap (e : Env) (n : Nat) :
    u64 ((run e n).target_chunk * chunk_size) = (run e n).target_chunk * chunk_size ∧
    u64 ((run e n).complete_count * chunk_size) = (run e n).complete_count * chunk_size ∧
    ((run e n).complete_count < chunk_num e →
      u64 (u64 ((run e n).complete_count + 1) * chunk_size) =
        ((run e n).complete_count + 1) * chunk_size) ∧
    (∀ o l, (o, l) ∈ writes (run e n).log →
      (∃ k, k < chunk_num e ∧ o = k * chunk_size) ∧ l = chunk_size ∧
      o + l ≤ image_size e) ∧
    (∀ d t, (d, t) ∈ updates (run e n).log →
      ∃ k, k < (run e n).complete_count ∧ d = (k + 1) * chunk_size) := by
  have hI := Inv.inv_run e n
  have hL := LogInv.log_run e n
  have hN := chunk_num_lt e
  refine ⟨u64_mul_chunk_size e hI.target_le, u64_mul_chunk_size e hI.complete_le, ?_, ?_, ?_⟩
  · intro hlt
    rw [u64_of_lt (show (run e n).complete_count + 1 < 2 ^ 64 by omega)]
    exact u64_mul_chunk_size e hlt
  · intro o l hmem
    rw [hL.writes_eq] at hmem
    obtain ⟨k, hk, hkeq⟩ := List.mem_map.mp hmem
    have hk' : k < (writes (run e n).log).length := List.mem_range.mp hk
    have ho : o = k * chunk_size := (congrArg Prod.fst hkeq).symm
    have hl : l = chunk_size := (congrArg Prod.snd hkeq).symm
    have hle := hL.writes_le
    have h1 : (k + 1) * chunk_size ≤ chunk_num e * chunk_size :=
      Nat.mul_le_mul_right _ (by omega)
    have h2 := chunk_num_mul_le e
    have h3 : (k + 1) * chunk_size = k * chunk_size + chunk_size := by ring
    exact ⟨⟨k, by omega, ho⟩, hl, by omega⟩
  · intro d t hmem
    rw [hL.updates_eq] at hmem
    obtain ⟨k, hk, hkeq⟩ := List.mem_map.mp hmem
    exact ⟨k, List.mem_range.mp hk, (congrArg Prod.fst hkeq).symm⟩

theorem FillInv.fill_init (e : Env) : FillInv (init e) := by
  unfold rbd.action.create.init
  split <;> (intro i m h; cases h)

theorem FillInv.fill_inv_step {e : Env} {s : State} (hI : Inv e s) (h : FillInv s) :
    FillInv (step e s) := by
  apply step_cases e s
  case head =>
    intro _ i m hpc i' hi'
    simp only [Pc.fill.injEq] at hpc
    omega
  case fill_skip =>
    intro i m op hpc _ hc i2 m2 hpc2 i' hi'
    simp only [Pc.fill.injEq] at hpc2
    obtain ⟨rfl, rfl⟩ := hpc2
    rcases Nat.lt_succ_iff_lt_or_eq.mp hi' with hlt | heq
    · exact h i m hpc i' hlt
    · subst heq; exact ⟨op, hc⟩
  case fill_issue =>
    intro i m hpc hi hc _ i2 m2 hpc2 i' hi'
    simp only [Pc.fill.injEq] at hpc2
    obtain ⟨rfl, rfl⟩ := hpc2
    show ∃ op, (s.cvec.set i (some s.target_chunk)).getD i' none = some op
    rcases Nat.lt_succ_iff_lt_or_eq.mp hi' with hlt | heq
    · rw [getD_set_ne _ _ _ _ (by omega)]
      exact h i m hpc i' hlt
    · subst heq
      exact ⟨_, getD_set_eq _ _ _ (fill_index_lt hI hpc hi)⟩
  case done => intro _; exact h
  all_goals (intros; intro i m hpc; cases hpc)

theorem FillInv.fill_inv_run (e : Env) (n : Nat) : FillInv (run e n) := by
  induction n with
  | zero => exact FillInv.fill_init e
  | succ n ih => rw [run_succ]; exact ih.fill_inv_step (Inv.inv_run e n)

/-- The test `i < max_aio` of the send loop is reached `i + 1` steps after the
top of the iteration, with the `max_aio` computed there. -/
theorem fill_since_head (e : Env) (n i : Nat) (m : Int) (h : (run e n).pc = .fill i m) :
    i + 1 ≤ n ∧ (run e (n - (i + 1))).pc = .head ∧
    m = max_aio_of e (run e (n - (i + 1))).target_chunk := by
  induction n generalizing i m with
  | zero =>
    exfalso
    have h0 : (run e 0).pc = .head ∨ (run e 0).pc = .done := by
      show (init e).pc = .head ∨ (init e).pc = .done
      unfold init
      split
      · exact Or.inr rfl
      · exact Or.inl rfl
    rcases h0 with h0 | h0 <;> rw [h0] at h <;> cases h
  | succ n ih =>
    have key : ((run e n).pc = .head ∧ i = 0 ∧ m = max_aio_of e (run e n).target_chunk) ∨
        (∃ i0, (run e n).pc = .fill i0 m ∧ i = i0 + 1) := by
      revert h
      rw [run_succ]
      apply step_cases e (run e n)
        (fun x => x.pc = .fill i m →
          ((run e n).pc = .head ∧ i = 0 ∧ m = max_aio_of e (run e n).target_chunk) ∨
          (∃ i0, (run e n).pc = .fill i0 m ∧ i = i0 + 1))
      case head =>
        intro hpc hx
        simp only [Pc.fill.injEq] at hx
        exact Or.inl ⟨hpc, hx.1.symm, hx.2.symm⟩
      case fill_skip =>
        intro i0 m0 op hpc _ _ hx
        simp only [Pc.fill.injEq] at hx
        obtain ⟨rfl, rfl⟩ := hx
        exact Or.inr ⟨i0, hpc, rfl⟩
      case fill_issue =>
        intro i0 m0 hpc _ _ _ hx
        simp only [Pc.fill.injEq] at hx
        obtain ⟨rfl, rfl⟩ := hx
        exact Or.inr ⟨i0, hpc, rfl⟩
      case done =>
        intro hpc hx
        rw [hpc] at hx; cases hx
      all_goals (intros; simp_all)
    rcases key with ⟨hh, rfl, hm⟩ | ⟨i0, hf, rfl⟩
    · exact ⟨by omega, by simpa using hh, by simpa using hm⟩
    · obtain ⟨h1, h2, h3⟩ := ih i0 m hf
      have hsub : n + 1 - (i0 + 1 + 1) = n - (i0 + 1) := by omega
      rw [hsub]
      exact ⟨by omega, h2, h3⟩

/-- C13, as stated, fails: three chunks, two slots, the first write slow. The
second send loop ends at step 10 without an issue failure, and after it
(step 11) `target_chunk` is 2 of 3 while slot 1 is empty. -/
theorem fill_phase_counterexample :
    (run slowFirstEnv 10).pc = .fill 1 1 ∧ (run slowFirstEnv 11).pc = .poll 0 ∧
    (run slowFirstEnv 11).target_chunk = 2 ∧ chunk_num slowFirstEnv = 3 ∧
    (run slowFirstEnv 11).cvec = [some 0, none] ∧
    ¬ ((run slowFirstEnv 11).target_chunk = chunk_num slowFirstEnv ∨
       ∀ j, j < concurr slowFirstEnv → (run slowFirstEnv 11).cvec.getD j none ≠ none) := by
  refine ⟨by decide!, by decide!, by decide!, by decide!, by decide!, ?_⟩
  rintro (h | h)
  · exact absurd h (by decide!)
  · exact h 1 (by decide!) (by decide!)

/-- C13, amended: when the send loop ends without an issue failure (at step
`n`, its test `i < max_aio` failing), `target_chunk <= chunk_num` and every
slot with index below `max_aio` is occupied, `max_aio` being the value computed
at the top of this iteration (`i + 1` steps earlier), which for a concurrency
in the range of `int` is the smaller of `concurr` and the number of chunks not
sent then. Slots from `max_aio` on are not visited. In particular no slot is
empty when `max_aio = concurr`. -/
theorem fill_phase_fills_below_max_aio (e : Env) (n i : Nat) (m : Int)
    (hpc : (run e n).pc = .fill i m) (hend : ¬ (i : Int) < m) :
    (run e (n + 1)).pc = .poll 0 ∧
    (run e (n + 1)).target_chunk ≤ chunk_num e ∧
    (∀ j : Nat, (j : Int) < m → ∃ op, (run e (n + 1)).cvec.getD j none = some op) ∧
    (i + 1 ≤ n ∧ (run e (n - (i + 1))).pc = .head ∧
      m = max_aio_of e (run e (n - (i + 1))).target_chunk) ∧
    (concurr e < 2 ^ 31 →
      m = ((min (concurr e)
        (chunk_num e - (run e (n - (i + 1))).target_chunk) : Nat) : Int)) ∧
    (m = (concurr e : Int) →
      ∀ j, j < concurr e → (run e (n + 1)).cvec.getD j none ≠ none) := by
  have hF := FillInv.fill_inv_run e n
  have hsince := fill_since_head e n i m hpc
  have hnext : (run e (n + 1)).pc = .poll 0 ∧ (run e (n + 1)).cvec = (run e n).cvec := by
    rw [run_succ]
    apply step_cases_fill e (run e n) i m hpc
      (fun x => x.pc = .poll 0 ∧ x.cvec = (run e n).cvec)
    case fill_exit => intro _; exact ⟨rfl, rfl⟩
    all_goals (intros; contradiction)
  have hslots : ∀ j : Nat, (j : Int) < m →
      ∃ op, (run e (n + 1)).cvec.getD j none = some op := by
    intro j hj
    rw [hnext.2]
    exact hF i m hpc j (by omega)
  refine ⟨hnext.1, (Inv.inv_run e (n + 1)).target_le, hslots, hsince, ?_, ?_⟩
  · intro h31
    rw [hsince.2.2]
    exact max_aio_of_eq h31 (Inv.inv_run e _).target_le
  · intro hm j hj hnone
    obtain ⟨op, hop⟩ := hslots j (by rw [hm]; exact_mod_cast hj)
    rw [hop] at hnone
    cases hnone

/-- Witness of C13 amended: in the sweep of the counterexample the second send
loop ends at step 10 with `max_aio` = 1, and slot 0 is occupied. -/
theorem fill_phase_fills_below_max_aio_witness :
    (run slowFirstEnv 10).pc = .fill 1 1 ∧
    (∃ op, (run slowFirstEnv (10 + 1)).cvec.getD 0 none = some op) ∧
    (1 : Int) = ((min (concurr slowFirstEnv)
      (chunk_num slowFirstEnv - (run slowFirstEnv (10 - (1 + 1))).target_chunk) : Nat) : Int) :=
  ⟨by decide!,
    (fill_phase_fills_below_max_aio slowFirstEnv 10 1 1 (by decide!) (by decide)).2.2.1 0
      (by decide),
    (fill_phase_fills_below_max_aio slowFirstEnv 10 1 1 (by decide!) (by decide)).2.2.2.2.1
      (by decide!)⟩

/-- What follows the step `n` at which the completion loop reads, in slot `j`,
a complete handle `op` with a negative result. -/
theorem poll_failure_exit {e : Env} {n j op : Nat} (h32 : concurr e < 2 ^ 32)
    (hpc : (run e n).pc = .poll j) (hj : j < concurr e)
    (hslot : (run e n).cvec.getD j none = some op)
    (hdone : e.is_complete op (run e n).clock = true)
    (hneg : e.get_return_value op < 0) :
    write_data e (n + 1 + (concurr e + 1)) = some (e.get_return_value op) ∧
    (∃ l, (run e (n + 1 + (concurr e + 1))).log = l ++ [Event.fail]) ∧
    (∀ m, Event.finish ∉ (run e m).log) ∧
    (∀ m, n ≤ m → writes (run e m).log = writes (run e n).log) := by
  have hstep : (run e (n + 1)).pc = .cleanup 0 ∧
      (run e (n + 1)).r = e.get_return_value op ∧
      writes (run e (n + 1)).log = writes (run e n).log := by
    rw [run_succ]
    apply step_cases_poll e (run e n) j hpc
      (fun x => x.pc = .cleanup 0 ∧ x.r = e.get_return_value op ∧
        writes x.log = writes (run e n).log)
    case poll_exit => intro h; exact absurd hj h
    case poll_empty => intro _ h; rw [hslot] at h; cases h
    case poll_wait =>
      intro op' _ h hd
      rw [hslot] at h; cases h
      rw [hdone] at hd; cases hd
    case poll_bad =>
      intro op' _ h _ _
      rw [hslot] at h; cases h
      exact ⟨rfl, rfl, by simp [writes_append, writes]⟩
    case poll_ok =>
      intro op' _ h _ hr
      rw [hslot] at h; cases h
      exact absurd hneg hr
  obtain ⟨hc, hr, hw⟩ := hstep
  have hx := error_exit h32 hc
  obtain ⟨rel, hcl⟩ := hx.cleaned
  refine ⟨write_data_eq_some hx.returned (by rw [hcl.r, hr]), ⟨_, hcl.log⟩, hx.no_finish, ?_⟩
  intro m hm
  rcases Nat.eq_or_lt_of_le hm with heq | hlt
  · rw [heq]
  · rw [hx.writes_same m hlt, hw]

theorem concurr_of_two {e : Env} (h : e.rbd_concurrent_management_ops = 2) :
    concurr e = 2 := by
  unfold concurr; rw [h]; rfl

/-- C12, as stated, fails: five chunks, two slots, the third write completes
with `-5` but late. It sits in slot 1 while slot 0 takes the fourth and then
the fifth write; its failure is read at step 64 and `write_data` returns `-5` at
step 68 with five writes issued, neither three nor four. -/
theorem third_failure_counterexample :
    concurr lateThirdEnv = 2 ∧ image_size lateThirdEnv = 5 * chunk_size ∧
    lateThirdEnv.get_return_value 2 = -5 ∧
    (run lateThirdEnv 64).pc = .poll 1 ∧
    (run lateThirdEnv 64).cvec.getD 1 none = some 2 ∧
    lateThirdEnv.is_complete 2 (run lateThirdEnv 64).clock = true ∧
    write_data lateThirdEnv 68 = some (-5) ∧
    (writes (run lateThirdEnv 68).log).length = 5 ∧
    ¬ ((writes (run lateThirdEnv 68).log).length = 3 ∨
       (writes (run lateThirdEnv 68).log).length = 4) := by
  decide!

/-- C12, amended: five chunks, two slots. When the completion loop reads (at
step `n`) the completion of the third write issued and its result is negative,
`write_data` returns that result four steps later, `pc.fail()` being its last
call and `pc.finish()` never called; no write is issued after step `n`, and the
number of writes issued is at least 3 and at most 5 (the fourth and the fifth
may have been issued while the third was in flight). -/
theorem third_failure_scenario (e : Env) (n j : Nat)
    (hconc : e.rbd_concurrent_management_ops = 2)
    (hsize : image_size e = 5 * chunk_size)
    (hneg : e.get_return_value 2 < 0)
    (hpc : (run e n).pc = .poll j)
    (hslot : (run e n).cvec.getD j none = some 2)
    (hdone : e.is_complete 2 (run e n).clock = true) :
    write_data e (n + 4) = some (e.get_return_value 2) ∧
    (∃ l, (run e (n + 4)).log = l ++ [Event.fail]) ∧
    (∀ m, Event.finish ∉ (run e m).log) ∧
    (∀ m, n ≤ m → writes (run e m).log = writes (run e n).log) ∧
    3 ≤ (writes (run e (n + 4)).log).length ∧
    (writes (run e (n + 4)).log).length ≤ 5 := by
  have hc := concurr_of_two hconc
  have hI := Inv.inv_run e n
  have hj : j < concurr e := by rw [← hI.len]; exact getD_lt_length _ _ _ hslot
  have hx := poll_failure_exit (by rw [hc]; decide) hpc hj hslot hdone hneg
  rw [hc] at hx
  have hcn : chunk_num e = 5 := by
    unfold chunk_num; rw [hsize]; exact Nat.mul_div_cancel _ chunk_size_pos
  have hin : (run e n).pc.inLoop := by rw [hpc]; trivial
  have h3 := (SlotInv.slot_run e n).slot_lt hin j 2 hslot
  have hw := (LogInv.log_run e n).writes_loop hin
  have hle := (LogInv.log_run e (n + 4)).writes_le
  have hsame := hx.2.2.2 (n + 4) (by omega)
  refine ⟨hx.1, hx.2.1, hx.2.2.1, hx.2.2.2, ?_, by rw [← hcn]; exact hle⟩
  rw [hsame, hw]
  omega

/-- Witness of C12 amended: the third write completes with `-5` at its first
poll (step 12) while the second is still in flight: three writes issued. -/
theorem third_failure_scenario_witness :
    (run aloneThirdEnv 12).pc = .poll 0 ∧
    (run aloneThirdEnv 12).cvec.getD 0 none = some 2 ∧
    write_data aloneThirdEnv (12 + 4) = some (aloneThirdEnv.get_return_value 2) ∧
    (writes (run aloneThirdEnv (12 + 4)).log).length = 3 :=
  ⟨by decide!, by decide!,
    (third_failure_scenario aloneThirdEnv 12 0 rfl (by decide!) (by decide!) (by decide!)
      (by decide!) (by decide!)).1,
    by decide!⟩

theorem ResultInv.result_init (e : Env) : ResultInv e (init e) := by
  unfold rbd.action.create.init
  split
  · exact ⟨by simp [Pc.inLoop], by simp [Pc.inLoop], by simp [Pc.inLoop], by simp⟩
  · exact ⟨by simp, by simp, by intro _ hc hp; simp at hc; omega, by simp⟩

theorem ResultInv.result_step {e : Env} {s : State} (hI : Inv e s) (hL : LogInv e s)
    (hS : SlotInv s) (h : ResultInv e s) : ResultInv e (step e s) := by
  obtain ⟨hnn, hun, hlast, hfin⟩ := h
  have hnofin : s.pc ≠ .done → Event.finish ∉ s.log := fun hp => (hL.running hp).2.1
  apply step_cases e s
  case head =>
    intro hpc
    have hin : s.pc.inLoop := by rw [hpc]; trivial
    exact ⟨fun _ => hnn hin, fun _ => hun hin, fun _ => hlast hin,
      fun hm => absurd hm (hnofin (by simp [hpc]))⟩
  case fill_exit =>
    intro i m hpc _
    have hin : s.pc.inLoop := by rw [hpc]; trivial
    exact ⟨fun _ => hnn hin, fun _ => hun hin, fun _ => hlast hin,
      fun hm => absurd hm (hnofin (by simp [hpc]))⟩
  case fill_skip =>
    intro i m op hpc _ _
    have hin : s.pc.inLoop := by rw [hpc]; trivial
    exact ⟨fun _ => hnn hin, fun _ => hun hin, fun _ => hlast hin,
      fun hm => absurd hm (hnofin (by simp [hpc]))⟩
  case fill_fail =>
    intro i m hpc _ _ _
    refine ⟨by simp [Pc.inLoop], by simp [Pc.inLoop], by simp [Pc.inLoop], ?_⟩
    intro hm
    have := hnofin (by simp [hpc])
    simp at hm
    exact absurd hm this
  case fill_issue =>
    intro i m hpc hi _ hr
    have hin : s.pc.inLoop := by rw [hpc]; trivial
    have ht := fill_target_lt hI hpc hi
    have hN := chunk_num_lt e
    have hu : u64 (s.target_chunk + 1) = s.target_chunk + 1 := u64_of_lt (by omega)
    have hcnt := hI.count hin
    refine ⟨fun _ => by simpa using hr, ?_, ?_, ?_⟩
    · intro _ h0
      simp only [hu] at h0
      omega
    · intro _ hc _
      simp only at hc
      omega
    · intro hm
      have := hnofin (by simp [hpc])
      simp at hm
      exact absurd hm this
  case poll_exit =>
    intro j hpc _
    have hin : s.pc.inLoop := by rw [hpc]; trivial
    exact ⟨fun _ => hnn hin, fun _ => hun hin, fun _ => hlast hin,
      fun hm => absurd hm (hnofin (by simp [hpc]))⟩
  case poll_empty =>
    intro j hpc _ _
    have hin : s.pc.inLoop := by rw [hpc]; trivial
    exact ⟨fun _ => hnn hin, fun _ => hun hin, fun _ => hlast hin,
      fun hm => absurd hm (hnofin (by simp [hpc]))⟩
  case poll_wait =>
    intro j op hpc _ _ _
    have hin : s.pc.inLoop := by rw [hpc]; trivial
    exact ⟨fun _ => hnn hin, fun _ => hun hin, fun _ => hlast hin,
      fun hm => absurd hm (hnofin (by simp [hpc]))⟩
  case poll_bad =>
    intro j op hpc _ _ _ _
    refine ⟨by simp [Pc.inLoop], by simp [Pc.inLoop], by simp [Pc.inLoop], ?_⟩
    intro hm
    have := hnofin (by simp [hpc])
    simp at hm
    exact absurd hm this
  case poll_ok =>
    intro j op hpc _ hc _ hr
    have hin : s.pc.inLoop := by rw [hpc]; trivial
    have hlt := hS.slot_lt hin j op hc
    refine ⟨fun _ => by simpa using hr, ?_, ?_, ?_⟩
    · intro _ h0
      simp only at h0
      omega
    · intro _ _ _
      exact ⟨op, by simp [releases_snoc_update], rfl⟩
    · intro hm
      have := hnofin (by simp [hpc])
      simp at hm
      exact absurd hm this
  case check_done =>
    intro hpc hcc
    have hin : s.pc.inLoop := by rw [hpc]; trivial
    refine ⟨by simp [Pc.inLoop], by simp [Pc.inLoop], by simp [Pc.inLoop], ?_⟩
    intro _
    refine ⟨hnn hin, ?_, ?_⟩
    · intro hz
      have := hI.target_le
      exact hun hin (by omega)
    · intro hp
      obtain ⟨op, h1, h2⟩ := hlast hin hcc hp
      exact ⟨op, by simpa [releases_append, releases] using h1, h2⟩
  case check_again =>
    intro hpc _
    have hin : s.pc.inLoop := by rw [hpc]; trivial
    exact ⟨fun _ => hnn hin, fun _ => hun hin, fun _ => hlast hin,
      fun hm => absurd hm (hnofin (by simp [hpc]))⟩
  case cleanup_exit =>
    intro j hpc _
    refine ⟨by simp [Pc.inLoop], by simp [Pc.inLoop], by simp [Pc.inLoop], ?_⟩
    intro hm
    have := hnofin (by simp [hpc])
    simp at hm
    exact absurd hm this
  case cleanup_empty =>
    intro j hpc _ _
    exact ⟨by simp [Pc.inLoop], by simp [Pc.inLoop], by simp [Pc.inLoop],
      fun hm => absurd hm (hnofin (by simp [hpc]))⟩
  case cleanup_wait =>
    intro j op hpc _ _ _
    exact ⟨by simp [Pc.inLoop], by simp [Pc.inLoop], by simp [Pc.inLoop],
      fun hm => absurd hm (hnofin (by simp [hpc]))⟩
  case cleanup_release =>
    intro j op hpc _ _ _
    refine ⟨by simp [Pc.inLoop], by simp [Pc.inLoop], by simp [Pc.inLoop], ?_⟩
    intro hm
    have := hnofin (by simp [hpc])
    simp at hm
    exact absurd hm this
  case done =>
    intro _
    exact ⟨hnn, hun, hlast, hfin⟩

theorem ResultInv.result_run (e : Env) (n : Nat) : ResultInv e (run e n) := by
  induction n with
  | zero => exact ResultInv.result_init e
  | succ n ih =>
    rw [run_succ]
    exact ih.result_step (Inv.inv_run e n) (LogInv.log_run e n) (SlotInv.slot_run e n)

theorem write_data_some {e : Env} {n : Nat} {v : Int} (h : write_data e n = some v) :
    (run e n).pc = .done ∧ (run e n).r = v := by
  unfold write_data at h
  by_cases hd : (run e n).pc = .done
  · rw [if_pos hd] at h
    exact ⟨hd, Option.some.inj h⟩
  · rw [if_neg hd] at h
    cases h

/-- C18: on every successful exit (the one after `pc.finish()`) the value
returned by `write_data` is not negative; it is 0 when `chunk_num == 0` and
otherwise the result code of the handle whose completion was read, and which
was released, last, so it need not be 0 (a sweep returning 7 exists); and
`execute`, which gets to the thick write only when everything before it has
succeeded and the switch is set, returns exactly 0 whenever `thick_write`
returns a non-negative value. -/
theorem success_value_and_execute (e : Env) (n : Nat) (x : ExecEnv) :
    (∀ v, write_data e n = some v → Event.finish ∈ (run e n).log →
      0 ≤ v ∧ (chunk_num e = 0 → v = 0) ∧
      (0 < chunk_num e →
        ∃ op, (releases (run e n).log).getLast? = some op ∧ v = e.get_return_value op)) ∧
    (∃ k, write_data resultSevenEnv k = some 7 ∧ Event.finish ∈ (run resultSevenEnv k).log) ∧
    (∀ v, 0 ≤ x.get_pool_image_snapshot_names → 0 ≤ x.get_image_options →
      0 ≤ x.get_image_size → 0 ≤ x.utils_init → 0 ≤ do_create x → x.thick = true →
      thick_write x e n = some v → 0 ≤ v → execute x e n = some 0) := by
  refine ⟨?_, ⟨16, by decide!, by decide!⟩, ?_⟩
  · intro v hv hfin
    obtain ⟨_, hr⟩ := write_data_some hv
    rw [← hr]
    exact (ResultInv.result_run e n).finished hfin
  · intro v h1 h2 h3 h4 h5 ht hw hv
    unfold execute
    rw [if_neg (by omega), if_neg (by omega), if_neg (by omega), if_neg (by omega),
      if_neg (by omega), if_pos ht, hw]
    simp only []
    rw [if_neg (by omega)]

/-- Witness of C18: three chunks, two slots, every completion with result 7:
`write_data` returns 7 after `pc.finish()`, `thick_write` returns 7 and `execute`
returns 0. -/
theorem success_value_and_execute_witness :
    write_data resultSevenEnv 16 = some 7 ∧
    thick_write thickExec resultSevenEnv 16 = some 7 ∧
    execute thickExec resultSevenEnv 16 = some 0 ∧
    (0 < chunk_num resultSevenEnv →
      ∃ op, (releases (run resultSevenEnv 16).log).getLast? = some op ∧
        (7 : Int) = resultSevenEnv.get_return_value op) :=
  ⟨by decide!, by decide!,
    (success_value_and_execute resultSevenEnv 16 thickExec).2.2 7 (by decide) (by decide)
      (by decide) (by decide) (by decide) rfl (by decide!) (by decide),
    ((success_value_and_execute resultSevenEnv 16 thickExec).1 7 (by decide!)
      (by decide!)).2.2⟩

end rbd.action.create
